import Mathlib

/-!
Verification of the jubjub-prototype gadget library.

The development shallowly embeds the Rust source (`src/lib.rs`): the prime
field `Fr` of BLS12-381 becomes `ZMod r`, the bellman constraint-system
boundary becomes an explicit state record (variable counter, partial
assignment, emitted constraints), and every gadget becomes a state-passing
Lean function mirroring the Rust control flow.  Witness values that may be
missing (`Assignment<T>` in the source) are `Option` values, and fallible
field inversion is `Option`-valued.

The first section certifies that the scalar-field modulus `r` is prime via
a Lucas certificate (7 is a primitive root mod `r`), so that `ZMod r` is a
field and the algebraic reasoning about the curve gadgets goes through.
-/

set_option maxRecDepth 100000

namespace Jubjub

/-- The BLS12-381 scalar field modulus: the modulus of `Fr` in the source. -/
def r : ℕ := 52435875175126190479447740508185965837690552500527637822603658699938581184513

/-- Fuel-driven binary modular exponentiation (structural recursion on fuel so
that the kernel can evaluate it); used to certify primality of `r`. -/
def powModF : Nat → Nat → Nat → Nat → Nat
  | 0, _, _, m => 1 % m
  | fuel + 1, b, e, m =>
    if e = 0 then 1 % m
    else
      let h := powModF fuel (b * b % m) (e / 2) m
      if e % 2 = 1 then h * b % m else h

theorem powModF_eq (fuel : ℕ) :
    ∀ e, e < 2 ^ fuel → ∀ b m, powModF fuel b e m = b ^ e % m := by
  induction fuel with
  | zero =>
    intro e he b m
    interval_cases e
    simp [powModF]
  | succ f ih =>
    intro e he b m
    by_cases h0 : e = 0
    · simp [powModF, h0]
    · have h2 : 2 ^ (f + 1) = 2 * 2 ^ f := by rw [pow_succ]; ring
      have hdiv : e / 2 < 2 ^ f := by omega
      have hrec : powModF f (b * b % m) (e / 2) m = (b * b) ^ (e / 2) % m := by
        rw [ih (e / 2) hdiv, ← Nat.pow_mod]
      by_cases hodd : e % 2 = 1
      · have he2 : e = 2 * (e / 2) + 1 := by omega
        have hpow : b ^ e = (b * b) ^ (e / 2) * b := by
          conv_lhs => rw [he2]
          rw [pow_succ, pow_mul, pow_two]
        simp only [powModF, if_neg h0, if_pos hodd, hrec]
        rw [Nat.mod_mul_mod, hpow]
      · have he2 : e = 2 * (e / 2) := by omega
        have hpow : b ^ e = (b * b) ^ (e / 2) := by
          conv_lhs => rw [he2]
          rw [pow_mul, pow_two]
        simp only [powModF, if_neg h0, if_neg hodd, hrec]
        rw [hpow]

theorem zmod_natCast_pow_eq (b e : ℕ) (he : e < 2 ^ 256) :
    ((b : ZMod r)) ^ e = ((powModF 256 b e r : ℕ) : ZMod r) := by
  rw [powModF_eq 256 e he b r, ZMod.natCast_mod, Nat.cast_pow]

theorem seven_pow_ne_one (e : ℕ) (he : e < 2 ^ 256)
    (h1 : powModF 256 7 e r % r ≠ 1 % r) : (7 : ZMod r) ^ e ≠ 1 := by
  intro hcontra
  apply h1
  have h7 : (7 : ZMod r) = ((7 : ℕ) : ZMod r) := by norm_num
  rw [h7, zmod_natCast_pow_eq 7 e he] at hcontra
  have hcast : ((powModF 256 7 e r : ℕ) : ZMod r) = ((1 : ℕ) : ZMod r) := by
    rw [hcontra]; norm_num
  exact (ZMod.natCast_eq_natCast_iff' _ _ _).mp hcast

theorem seven_pow_eq_one : (7 : ZMod r) ^ (r - 1) = 1 := by
  have h7 : (7 : ZMod r) = ((7 : ℕ) : ZMod r) := by norm_num
  have he : r - 1 < 2 ^ 256 := by decide
  rw [h7, zmod_natCast_pow_eq 7 (r - 1) he]
  have hc : powModF 256 7 (r - 1) r = 1 := by decide
  rw [hc]; norm_num

theorem r_sub_one_fac :
    r - 1 = 2 ^ 32 * (3 * (11 * (19 * (10177 * (125527 * (859267 * (906349 ^ 2 *
      (2508409 * (2529403 * (52437899 * 254760293 ^ 2)))))))))) := by decide

theorem zmod_pow_eq_powModF (n b e : ℕ) (he : e < 2 ^ 64) :
    ((b : ZMod n)) ^ e = ((powModF 64 b e n : ℕ) : ZMod n) := by
  rw [powModF_eq 64 e he b n, ZMod.natCast_mod, Nat.cast_pow]

theorem zmod_pow_ne_one (n b e : ℕ) (he : e < 2 ^ 64)
    (h1 : powModF 64 b e n % n ≠ 1 % n) : ((b : ZMod n)) ^ e ≠ 1 := by
  intro hcontra
  apply h1
  rw [zmod_pow_eq_powModF n b e he] at hcontra
  have hcast : ((powModF 64 b e n : ℕ) : ZMod n) = ((1 : ℕ) : ZMod n) := by
    rw [hcontra]; norm_num
  exact (ZMod.natCast_eq_natCast_iff' _ _ _).mp hcast

theorem zmod_pow_eq_one (n b e : ℕ) (he : e < 2 ^ 64)
    (h1 : powModF 64 b e n % n = 1 % n) : ((b : ZMod n)) ^ e = 1 := by
  rw [zmod_pow_eq_powModF n b e he, ← ZMod.natCast_mod, h1, ZMod.natCast_mod]
  norm_num

/-- Lucas certificate for the largest factor of `63690073 - 1`’s cofactor
chain (keeps every trial-division certificate small). -/
theorem prime_63690073 : Nat.Prime 63690073 := by
  have hp2 : Nat.Prime 2 := by norm_num
  have hp3 : Nat.Prime 3 := by norm_num
  have hp2653753 : Nat.Prime 2653753 := by norm_num
  have h7 : (7 : ZMod 63690073) = ((7 : ℕ) : ZMod 63690073) := by norm_num
  refine lucas_primality 63690073 7 ?_ ?_
  · rw [h7]
    exact zmod_pow_eq_one 63690073 7 (63690073 - 1) (by norm_num) (by decide)
  · intro q hq hdvd
    have hfac : (63690073 - 1) = 2 ^ 3 * (3 * 2653753) := by norm_num
    rw [hfac] at hdvd
    have hres : q = 2 ∨ q = 3 ∨ q = 2653753 := by
      rcases (Nat.Prime.dvd_mul hq).mp hdvd with h | h
      · exact Or.inl ((Nat.prime_dvd_prime_iff_eq hq hp2).mp (hq.dvd_of_dvd_pow h))
      rcases (Nat.Prime.dvd_mul hq).mp h with h | h
      · exact Or.inr (Or.inl ((Nat.prime_dvd_prime_iff_eq hq hp3).mp h))
      · exact Or.inr (Or.inr ((Nat.prime_dvd_prime_iff_eq hq hp2653753).mp h))
    rcases hres with h | h | h <;> subst h <;> rw [h7] <;>
      exact zmod_pow_ne_one 63690073 7 _ (by norm_num) (by decide)

/-- Lucas certificate for the factor `254760293` of `r - 1`. -/
theorem prime_254760293 : Nat.Prime 254760293 := by
  have hp2 : Nat.Prime 2 := by norm_num
  have h2 : (2 : ZMod 254760293) = ((2 : ℕ) : ZMod 254760293) := by norm_num
  refine lucas_primality 254760293 2 ?_ ?_
  · rw [h2]
    exact zmod_pow_eq_one 254760293 2 (254760293 - 1) (by norm_num) (by decide)
  · intro q hq hdvd
    have hfac : (254760293 - 1) = 2 ^ 2 * 63690073 := by norm_num
    rw [hfac] at hdvd
    have hres : q = 2 ∨ q = 63690073 := by
      rcases (Nat.Prime.dvd_mul hq).mp hdvd with h | h
      · exact Or.inl ((Nat.prime_dvd_prime_iff_eq hq hp2).mp (hq.dvd_of_dvd_pow h))
      · exact Or.inr ((Nat.prime_dvd_prime_iff_eq hq prime_63690073).mp h)
    rcases hres with h | h <;> subst h <;> rw [h2] <;>
      exact zmod_pow_ne_one 254760293 2 _ (by norm_num) (by decide)

/-- Lucas certificate for the factor `52437899` of `r - 1`. -/
theorem prime_52437899 : Nat.Prime 52437899 := by
  have hp2 : Nat.Prime 2 := by norm_num
  have hp43 : Nat.Prime 43 := by norm_num
  have hp609743 : Nat.Prime 609743 := by norm_num
  have h2 : (2 : ZMod 52437899) = ((2 : ℕ) : ZMod 52437899) := by norm_num
  refine lucas_primality 52437899 2 ?_ ?_
  · rw [h2]
    exact zmod_pow_eq_one 52437899 2 (52437899 - 1) (by norm_num) (by decide)
  · intro q hq hdvd
    have hfac : (52437899 - 1) = 2 * (43 * 609743) := by norm_num
    rw [hfac] at hdvd
    have hres : q = 2 ∨ q = 43 ∨ q = 609743 := by
      rcases (Nat.Prime.dvd_mul hq).mp hdvd with h | h
      · exact Or.inl ((Nat.prime_dvd_prime_iff_eq hq hp2).mp h)
      rcases (Nat.Prime.dvd_mul hq).mp h with h | h
      · exact Or.inr (Or.inl ((Nat.prime_dvd_prime_iff_eq hq hp43).mp h))
      · exact Or.inr (Or.inr ((Nat.prime_dvd_prime_iff_eq hq hp609743).mp h))
    rcases hres with h | h | h <;> subst h <;> rw [h2] <;>
      exact zmod_pow_ne_one 52437899 2 _ (by norm_num) (by decide)

theorem r_prime : Nat.Prime r := by
  have hp2 : Nat.Prime 2 := by norm_num
  have hp3 : Nat.Prime 3 := by norm_num
  have hp11 : Nat.Prime 11 := by norm_num
  have hp19 : Nat.Prime 19 := by norm_num
  have hp10177 : Nat.Prime 10177 := by norm_num
  have hp125527 : Nat.Prime 125527 := by norm_num
  have hp859267 : Nat.Prime 859267 := by norm_num
  have hp906349 : Nat.Prime 906349 := by norm_num
  have hp2508409 : Nat.Prime 2508409 := by norm_num
  have hp2529403 : Nat.Prime 2529403 := by norm_num
  have hp52437899 : Nat.Prime 52437899 := prime_52437899
  have hp254760293 : Nat.Prime 254760293 := prime_254760293
  refine lucas_primality r 7 seven_pow_eq_one ?_
  intro q hq hdvd
  rw [r_sub_one_fac] at hdvd
  have resolve : q = 2 ∨ q = 3 ∨ q = 11 ∨ q = 19 ∨ q = 10177 ∨ q = 125527 ∨
      q = 859267 ∨ q = 906349 ∨ q = 2508409 ∨ q = 2529403 ∨ q = 52437899 ∨
      q = 254760293 := by
    rcases (Nat.Prime.dvd_mul hq).mp hdvd with h | h
    · exact Or.inl ((Nat.prime_dvd_prime_iff_eq hq hp2).mp (hq.dvd_of_dvd_pow h))
    rcases (Nat.Prime.dvd_mul hq).mp h with h | h
    · exact Or.inr (Or.inl ((Nat.prime_dvd_prime_iff_eq hq hp3).mp h))
    rcases (Nat.Prime.dvd_mul hq).mp h with h | h
    · exact Or.inr (Or.inr (Or.inl ((Nat.prime_dvd_prime_iff_eq hq hp11).mp h)))
    rcases (Nat.Prime.dvd_mul hq).mp h with h | h
    · exact Or.inr (Or.inr (Or.inr (Or.inl
        ((Nat.prime_dvd_prime_iff_eq hq hp19).mp h))))
    rcases (Nat.Prime.dvd_mul hq).mp h with h | h
    · exact Or.inr (Or.inr (Or.inr (Or.inr (Or.inl
        ((Nat.prime_dvd_prime_iff_eq hq hp10177).mp h)))))
    rcases (Nat.Prime.dvd_mul hq).mp h with h | h
    · exact Or.inr (Or.inr (Or.inr (Or.inr (Or.inr (Or.inl
        ((Nat.prime_dvd_prime_iff_eq hq hp125527).mp h))))))
    rcases (Nat.Prime.dvd_mul hq).mp h with h | h
    · exact Or.inr (Or.inr (Or.inr (Or.inr (Or.inr (Or.inr (Or.inl
        ((Nat.prime_dvd_prime_iff_eq hq hp859267).mp h)))))))
    rcases (Nat.Prime.dvd_mul hq).mp h with h | h
    · exact Or.inr (Or.inr (Or.inr (Or.inr (Or.inr (Or.inr (Or.inr (Or.inl
        ((Nat.prime_dvd_prime_iff_eq hq hp906349).mp (hq.dvd_of_dvd_pow h)))))))))
    rcases (Nat.Prime.dvd_mul hq).mp h with h | h
    · exact Or.inr (Or.inr (Or.inr (Or.inr (Or.inr (Or.inr (Or.inr (Or.inr (Or.inl
        ((Nat.prime_dvd_prime_iff_eq hq hp2508409).mp h)))))))))
    rcases (Nat.Prime.dvd_mul hq).mp h with h | h
    · exact Or.inr (Or.inr (Or.inr (Or.inr (Or.inr (Or.inr (Or.inr (Or.inr (Or.inr
        (Or.inl ((Nat.prime_dvd_prime_iff_eq hq hp2529403).mp h))))))))))
    rcases (Nat.Prime.dvd_mul hq).mp h with h | h
    · exact Or.inr (Or.inr (Or.inr (Or.inr (Or.inr (Or.inr (Or.inr (Or.inr (Or.inr
        (Or.inr (Or.inl ((Nat.prime_dvd_prime_iff_eq hq hp52437899).mp h)))))))))))
    · exact Or.inr (Or.inr (Or.inr (Or.inr (Or.inr (Or.inr (Or.inr (Or.inr (Or.inr
        (Or.inr (Or.inr
          ((Nat.prime_dvd_prime_iff_eq hq hp254760293).mp (hq.dvd_of_dvd_pow h))))))))))))
  rcases resolve with h | h | h | h | h | h | h | h | h | h | h | h <;> subst h <;>
    exact seven_pow_ne_one _ (by decide) (by decide)

instance r_prime_fact : Fact (Nat.Prime r) := ⟨r_prime⟩

/-- The field `Fr` of the source. -/
abbrev F : Type := ZMod r

/-- `Fr::num_bits() = 255`: the modulus is a 255-bit number. -/
theorem r_num_bits : 2 ^ 254 < r ∧ r < 2 ^ 255 := by decide

/-! ## The constraint-system boundary (bellman's `ConstraintSystem`)

Variables are numbered; variable `0` is the distinguished `CS::one()` wire.
A linear combination is the ordered list of `(coefficient, variable)` terms
exactly as the source builds it with `+` and `-`; a constraint is a triple
`(A, B, C)` recording `A·B = C`.  `alloc` hands out the next variable and
records the closure's value when the closure succeeds (proving mode); a
failing closure (parameter generation) records nothing but still allocates. -/

abbrev Variable : Type := Nat

/-- The `CS::one()` wire. -/
def oneVar : Variable := 0

abbrev LinearCombination : Type := List (F × Variable)

namespace LinearCombination

def zero : LinearCombination := []

/-- `lc + (coeff, var)` -/
def addTerm (lc : LinearCombination) (c : F) (v : Variable) : LinearCombination :=
  lc ++ [(c, v)]

/-- `lc + var` -/
def addVar (lc : LinearCombination) (v : Variable) : LinearCombination :=
  lc.addTerm 1 v

/-- `lc - (coeff, var)` -/
def subTerm (lc : LinearCombination) (c : F) (v : Variable) : LinearCombination :=
  lc ++ [(-c, v)]

/-- `lc - var` -/
def subVar (lc : LinearCombination) (v : Variable) : LinearCombination :=
  lc.subTerm 1 v

/-- Evaluate a linear combination against a total assignment. -/
def eval (lc : LinearCombination) (asgn : Variable → F) : F :=
  (lc.map (fun t => t.1 * asgn t.2)).sum

end LinearCombination

abbrev Constraint : Type := LinearCombination × LinearCombination × LinearCombination

/-- A rank-1 constraint `A·B = C` holds under an assignment. -/
def Constraint.holds (c : Constraint) (asgn : Variable → F) : Prop :=
  c.1.eval asgn * c.2.1.eval asgn = c.2.2.eval asgn

structure CS where
  next : Nat
  assign : Variable → Option F
  constraints : List Constraint

/-- Fresh system: only the `one` wire exists, valued 1. -/
def CS.init : CS :=
  ⟨1, fun v => if v = 0 then some 1 else none, []⟩

/-- `cs.alloc(closure)`: the closure's outcome is the `Option F` argument. -/
def CS.alloc (s : CS) (value : Option F) : Variable × CS :=
  (s.next, { next := s.next + 1,
             assign := fun w => if w = s.next then value else s.assign w,
             constraints := s.constraints })

/-- `cs.enforce(a, b, c)`. -/
def CS.enforce (s : CS) (a b c : LinearCombination) : CS :=
  { s with constraints := s.constraints ++ [(a, b, c)] }

/-- The total assignment the backend derives from the recorded values
(unassigned wires read as 0; the one-wire reads as 1 from `init`). -/
def CS.asgn (s : CS) (v : Variable) : F := (s.assign v).getD 0

/-! ## Boolean gadget (`Bit`) -/

def boolToF (b : Bool) : F := if b then 1 else 0

/-- `Bit(Variable, Assignment<bool>)`. -/
structure Bit where
  var : Variable
  val : Option Bool

namespace Bit

/-- `Bit::one`: the always-1 wire, no constraint. -/
def one : Bit := ⟨oneVar, some true⟩

/-- `Bit::alloc`: allocate from the closure and constrain `(1 - a) * a = 0`. -/
def alloc (s : CS) (value : Option Bool) : Bit × CS :=
  let a := s.alloc (value.map boolToF)
  let s1 := a.2.enforce ((LinearCombination.zero.addVar oneVar).subVar a.1)
                        (LinearCombination.zero.addVar a.1)
                        LinearCombination.zero
  (⟨a.1, value⟩, s1)

/-- `Bit::and`: allocate `c` with witness `a ∧ b` and constrain `a·b = c`. -/
def and (a : Bit) (b : Bit) (s : CS) : Bit × CS :=
  let cval : Option Bool :=
    match a.val, b.val with
    | some x, some y => some (x && y)
    | _, _ => none
  let c := s.alloc (cval.map boolToF)
  let s1 := c.2.enforce (LinearCombination.zero.addVar a.var)
                        (LinearCombination.zero.addVar b.var)
                        (LinearCombination.zero.addVar c.1)
  (⟨c.1, cval⟩, s1)

end Bit

/-! ## Field-element gadget (`Num`) -/

structure Num where
  value : Option F
  var : Variable

namespace Num

/-- `Num::mul`: allocate the product and constrain `self·other = product`. -/
def mul (a : Num) (b : Num) (s : CS) : Num × CS :=
  let rval : Option F :=
    match a.value, b.value with
    | some x, some y => some (x * y)
    | _, _ => none
  let rv := s.alloc rval
  let s1 := rv.2.enforce (LinearCombination.zero.addVar a.var)
                         (LinearCombination.zero.addVar b.var)
                         (LinearCombination.zero.addVar rv.1)
  (⟨rval, rv.1⟩, s1)

end Num

/-! ## Bit decomposition (`assignment_into_bits`) -/

/-- Allocate one `Bit` per listed closure outcome, in list order. -/
def allocBits : List (Option Bool) → CS → List Bit × CS
  | [], s => ([], s)
  | v :: rest, s =>
    let b := Bit.alloc s v
    let bs := allocBits rest b.2
    (b.1 :: bs.1, bs.2)

/-- The 256 bits yielded by `BitIterator::new(num.into_repr())`, most
significant first (`into_repr()` is four 64-bit limbs = 256 bits). -/
def reprBitsBE (v : F) : List Bool :=
  (List.range 256).map (fun i => v.val.testBit (255 - i))

/-- `assignment_into_bits`: known values are decomposed (reverse to
little-endian, truncate to `num_bits() = 255`) and allocated in that order;
unknown values allocate 255 unknown bits. -/
def assignment_into_bits (num : Option F) (s : CS) : List Bit × CS :=
  match num with
  | some v => allocBits (((reprBitsBE v).reverse.take 255).map some) s
  | none => allocBits (List.replicate 255 none) s

/-! ## Signed booleans (`FunBit`) -/

inductive FunBit where
  | Constant : Bool → FunBit
  | Is : Variable → Option Bool → FunBit
  | Not : Variable → Option Bool → FunBit

namespace FunBit

def from_bit (b : Bit) : FunBit := .Is b.var b.val

/-- The boolean a `FunBit` stands for (a `Not` negates its stored value). -/
def funVal : FunBit → Option Bool
  | .Constant b => some b
  | .Is _ val => val
  | .Not _ val => val.map (fun x => !x)

def not : FunBit → FunBit
  | .Constant b => .Constant (!b)
  | .Is var val => .Not var val
  | .Not var val => .Is var val

/-- `assert_is_false`: constrain the wire to 0 (resp. 1 for a `Not`); a
`Constant true` is a caller bug (a panic in the source, no constraint). -/
def assert_is_false (b : FunBit) (s : CS) : CS :=
  match b with
  | .Constant _ => s
  | .Is var _ =>
    s.enforce (LinearCombination.zero.addVar var)
              (LinearCombination.zero.addVar oneVar)
              LinearCombination.zero
  | .Not var _ =>
    s.enforce ((LinearCombination.zero.addVar oneVar).subVar var)
              (LinearCombination.zero.addVar oneVar)
              LinearCombination.zero

/-- Shared body of the same-sign XOR arms: allocate `c` and constrain
`2a·b = a + b − c`. -/
def xorAlloc (av : Variable) (aval : Option Bool) (bv : Variable)
    (bval : Option Bool) (s : CS) : FunBit × CS :=
  let cval : Option Bool :=
    match aval, bval with
    | some x, some y => some (Bool.xor x y)
    | _, _ => none
  let c := s.alloc (cval.map boolToF)
  let s1 := c.2.enforce ((LinearCombination.zero.addVar av).addVar av)
                        (LinearCombination.zero.addVar bv)
                        (((LinearCombination.zero.addVar av).addVar bv).subVar c.1)
  (.Is c.1 cval, s1)

def xor : FunBit → FunBit → CS → FunBit × CS
  | .Constant false, a, s => (a, s)
  | a, .Constant false, s => (a, s)
  | .Constant true, a, s => (a.not, s)
  | a, .Constant true, s => (a.not, s)
  | .Is av aval, .Is bv bval, s => xorAlloc av aval bv bval s
  | .Not av aval, .Not bv bval, s => xorAlloc av aval bv bval s
  | .Is iv ival, .Not nv nval, s =>
    let c := xorAlloc iv ival nv nval s
    (c.1.not, c.2)
  | .Not nv nval, .Is iv ival, s =>
    let c := xorAlloc iv ival nv nval s
    (c.1.not, c.2)

def and : FunBit → FunBit → CS → FunBit × CS
  | .Constant false, _, s => (.Constant false, s)
  | _, .Constant false, s => (.Constant false, s)
  | .Constant true, a, s => (a, s)
  | a, .Constant true, s => (a, s)
  | .Is av aval, .Is bv bval, s =>
    let cval : Option Bool :=
      match aval, bval with
      | some x, some y => some (x && y)
      | _, _ => none
    let c := s.alloc (cval.map boolToF)
    let s1 := c.2.enforce (LinearCombination.zero.addVar av)
                          (LinearCombination.zero.addVar bv)
                          (LinearCombination.zero.addVar c.1)
    (.Is c.1 cval, s1)
  | .Not av aval, .Not bv bval, s =>
    let cval : Option Bool :=
      match aval, bval with
      | some x, some y => some (!x && !y)
      | _, _ => none
    let c := s.alloc (cval.map boolToF)
    let s1 := c.2.enforce ((LinearCombination.zero.addVar oneVar).subVar av)
                          ((LinearCombination.zero.addVar oneVar).subVar bv)
                          (LinearCombination.zero.addVar c.1)
    (.Is c.1 cval, s1)
  | .Is iv ival, .Not nv nval, s =>
    let cval : Option Bool :=
      match ival, nval with
      | some x, some y => some (x && !y)
      | _, _ => none
    let c := s.alloc (cval.map boolToF)
    let s1 := c.2.enforce (LinearCombination.zero.addVar iv)
                          ((LinearCombination.zero.addVar oneVar).subVar nv)
                          (LinearCombination.zero.addVar c.1)
    (.Is c.1 cval, s1)
  | .Not nv nval, .Is iv ival, s =>
    let cval : Option Bool :=
      match ival, nval with
      | some x, some y => some (x && !y)
      | _, _ => none
    let c := s.alloc (cval.map boolToF)
    let s1 := c.2.enforce (LinearCombination.zero.addVar iv)
                          ((LinearCombination.zero.addVar oneVar).subVar nv)
                          (LinearCombination.zero.addVar c.1)
    (.Is c.1 cval, s1)

/-- `or`: `NOT (NOT a AND NOT b)`. -/
def or (a b : FunBit) (s : CS) : FunBit × CS :=
  let c := and a.not b.not s
  (c.1.not, c.2)

end FunBit

/-! ## Range check (`assert_less_than_r`) -/

/-- The modulus bit pattern as the source computes it:
`BitIterator::new(Fr::char())` yields 256 bits MSB first; the list is
reversed (little-endian) and truncated to `num_bits() = 255`. -/
def rBits : List Bool :=
  ((List.range 256).map (fun i => r.testBit (255 - i))).reverse.take 255

/-- The borrow-propagating loop of `assert_less_than_r`, one step per
`(modulus_bit, input_bit)` pair, little-endian order. -/
def subChain : List (Bool × Bit) → FunBit → CS → FunBit × CS
  | [], carry, s => (carry, s)
  | (a, b) :: rest, carry, s =>
    let aF := FunBit.Constant a
    let bF := FunBit.from_bit b
    let t1 := FunBit.xor aF bF s
    let t2 := FunBit.and aF.not bF t1.2
    let t3 := FunBit.and t1.1.not carry t2.2
    let t4 := FunBit.or t2.1 t3.1 t3.2
    subChain rest t4.1 t4.2

/-- `assert_less_than_r`: subtract the input bits from the modulus bits and
assert the final borrow is false. -/
def assert_less_than_r (bits : List Bit) (s : CS) : CS :=
  let c := subChain (rBits.zip bits) (FunBit.Constant false) s
  FunBit.assert_is_false c.1 c.2

/-- The little-endian weighted-sum terms of `unpack`'s linear constraint:
`lc + (cur, b)` with `cur` starting at 1 and doubling. -/
def packTerms : List Bit → F → LinearCombination
  | [], _ => []
  | b :: rest, cur => (cur, b.var) :: packTerms rest (cur * 2)

/-- `Num::unpack`: decompose into 255 bits, constrain the weighted sum to
equal the variable, then range-check the bits. -/
def Num.unpack (self : Num) (s : CS) : List Bit × CS :=
  let bs := assignment_into_bits self.value s
  let lc := packTerms bs.1 1
  let lc := lc.subVar self.var
  let s1 := bs.2.enforce LinearCombination.zero LinearCombination.zero lc
  let s2 := assert_less_than_r bs.1 s1
  (bs.1, s2)

/-! ## Window lookup (`synth`, `coordinate_lookup`, `point_lookup`) -/

/-- Index-carrying map, mirroring `v.iter_mut().enumerate()` in `synth`. -/
def mapIdxF {α β : Type} (f : Nat → α → β) : Nat → List α → List β
  | _, [] => []
  | i, x :: xs => f i x :: mapIdxF f (i + 1) xs

/-- One pass of the `synth` outer loop at index `i`. -/
def synthStep (constants : List F) (st : List F × List F) (i : Nat) :
    List F × List F :=
  let cur := -(st.1.getD i 0) + constants.getD i 0
  (mapIdxF (fun j x => if i + 1 ≤ j ∧ j &&& i = i then x + cur else x) 0 st.1,
   st.2 ++ [cur])

/-- `synth`: turn the `1 << window_size` table constants into the difference
constants of the multilinear extension.  `v` starts all-zero; pass `i` over
the indices, set `assignment[i] := constants[i] - v[i]` and add that into
every `v[j]` with `j > i` and `j & i = i`. -/
def synth (window_size : Nat) (constants : List F) : List F :=
  let n := 1 <<< window_size
  ((List.range n).foldl (synthStep constants) (List.replicate n 0, [])).2

/-- The state of the `synth` loop after the first `i` passes (window 4). -/
def synthState (cs : List F) (i : Nat) : List F × List F :=
  (List.range i).foldl (synthStep cs) (List.replicate 16 0, [])

/-- The final value of `assignment[k]` in the window-4 `synth` loop. -/
def synthA (cs : List F) (k : Nat) : F := (synthState cs (k + 1)).2.getD k 0

def dfltBit : Bit := ⟨0, none⟩

def dfltNum : Num := ⟨none, 0⟩

/-- The witness index of a 4-bit window: iterate the bits reversed,
`idx := 2·idx + bit`; fails if any bit is unknown. -/
def windowIndex (bits : List Bit) : Option Nat :=
  bits.foldr (fun bit acc =>
    match acc, bit.val with
    | some idx, some bv => some (2 * idx + (if bv then 1 else 0))
    | _, _ => none) (some 0)

/-- `coordinate_lookup`: allocate the selected table entry and emit the one
quadratic constraint of the multilinear-extension trick. -/
def coordinate_lookup (table : List F) (bits : List Bit)
    (a b c d : Bit) (s : CS) : Num × CS :=
  let rval : Option F := (windowIndex bits).map (fun idx => table.getD idx 0)
  let ra := s.alloc rval
  let rvar := ra.1
  let constants := synth 4 table
  let lhs_terms := LinearCombination.zero.addTerm (constants.getD 1 0) oneVar
  let lhs_terms := lhs_terms.addTerm (constants.getD 3 0) (bits.getD 1 dfltBit).var
  let lhs_terms := lhs_terms.addTerm (constants.getD 5 0) (bits.getD 2 dfltBit).var
  let lhs_terms := lhs_terms.addTerm (constants.getD 7 0) a.var
  let lhs_terms := lhs_terms.addTerm (constants.getD 9 0) (bits.getD 3 dfltBit).var
  let lhs_terms := lhs_terms.addTerm (constants.getD 11 0) b.var
  let lhs_terms := lhs_terms.addTerm (constants.getD 13 0) c.var
  let lhs_terms := lhs_terms.addTerm (constants.getD 15 0) d.var
  let rhs_terms := LinearCombination.zero.addVar rvar
  let rhs_terms := rhs_terms.subTerm (constants.getD 0 0) oneVar
  let rhs_terms := rhs_terms.subTerm (constants.getD 2 0) (bits.getD 1 dfltBit).var
  let rhs_terms := rhs_terms.subTerm (constants.getD 4 0) (bits.getD 2 dfltBit).var
  let rhs_terms := rhs_terms.subTerm (constants.getD 6 0) a.var
  let rhs_terms := rhs_terms.subTerm (constants.getD 8 0) (bits.getD 3 dfltBit).var
  let rhs_terms := rhs_terms.subTerm (constants.getD 10 0) b.var
  let rhs_terms := rhs_terms.subTerm (constants.getD 12 0) c.var
  let rhs_terms := rhs_terms.subTerm (constants.getD 14 0) d.var
  let s1 := ra.2.enforce lhs_terms
                         (LinearCombination.zero.addVar (bits.getD 0 dfltBit).var)
                         rhs_terms
  (⟨rval, rvar⟩, s1)

/-- `point_lookup`: four shared AND terms, then one lookup per coordinate. -/
def point_lookup (x_table y_table : List F) (bits : List Bit) (s : CS) :
    (Num × Num) × CS :=
  let a := Bit.and (bits.getD 1 dfltBit) (bits.getD 2 dfltBit) s
  let b := Bit.and (bits.getD 3 dfltBit) (bits.getD 1 dfltBit) a.2
  let c := Bit.and (bits.getD 3 dfltBit) (bits.getD 2 dfltBit) b.2
  let d := Bit.and c.1 (bits.getD 1 dfltBit) c.2
  let xc := coordinate_lookup x_table bits a.1 b.1 c.1 d.1 d.2
  let yc := coordinate_lookup y_table bits a.1 b.1 c.1 d.1 xc.2
  ((xc.1, yc.1), yc.2)

/-! ## The native curve model (`JubJub`, `Point`) -/

structure JubJub where
  d : F

/-- `JubJub::new()`: the twisted-Edwards coefficient `-(10240/10241)`. -/
def JubJub.new : JubJub :=
  ⟨(19257038036680949359750312669786877991949435402254120286184196891950884077233 : F)⟩

/-- Rust `Fr::inverse()`: `None` exactly on zero. -/
def inverse (a : F) : Option F := if a = 0 then none else some a⁻¹

structure Point where
  x : F
  y : F
deriving DecidableEq

namespace Point

/-- `Point::zero()`: the identity `(0, 1)`. -/
protected def zero : Point := ⟨0, 1⟩

/-- `Point::is_on_curve`: `−x² + y² = d·x²·y² + 1`. -/
def is_on_curve (p : Point) (j : JubJub) : Prop :=
  -(p.x ^ 2) + p.y ^ 2 = j.d * p.x ^ 2 * p.y ^ 2 + 1

instance (p : Point) (j : JubJub) : Decidable (p.is_on_curve j) := by
  unfold is_on_curve; infer_instance

/-- `Point::add_assign`: the incomplete twisted-Edwards sum; `none` models
the `unwrap` panic on a vanishing denominator. -/
def add_assign (p q : Point) (j : JubJub) : Option Point :=
  let y1y2 := p.y * q.y
  let x1x2 := p.x * q.x
  let dx1x2y1y2 := j.d * y1y2 * x1x2
  match inverse (dx1x2y1y2 + 1), inverse (-dx1x2y1y2 + 1) with
  | some d1, some d2 =>
    some ⟨(p.x * q.y + p.y * q.x) * d1, (y1y2 + x1x2) * d2⟩
  | _, _ => none

/-- `Point::double`. -/
def double (p : Point) (j : JubJub) : Option Point := p.add_assign p j

/-- One sampling attempt of `Point::rand`, given the sampled `y`:
the candidate `x² = (y² − 1)·(y²·d + 1)⁻¹` (`none` models the `unwrap`
panic when the inversion fails). -/
def randCandidate (y : F) (j : JubJub) : Option F :=
  let y2 := y * y
  let n := y2 - 1
  (inverse (y2 * j.d + 1)).map (fun i => n * i)

/-- The tail of `Point::rand` once `sqrt` has produced `x`: three doublings
of `(x, y)` before returning. -/
def randReturn (x y : F) (j : JubJub) : Option Point := do
  let p := Point.mk x y
  let p ← p.double j
  let p ← p.double j
  p.double j

end Point

/-- `generate_constant_table` applied to the 2048 sampled points: split into
chunks of 16 and record the x- and y-coordinate tables. -/
def generate_constant_table : List Point → List (List F × List F)
  | [] => []
  | p :: rest =>
    let c := (p :: rest).take 16
    (c.map Point.x, c.map Point.y) :: generate_constant_table ((p :: rest).drop 16)
termination_by l => l.length
decreasing_by simp; omega

/-! ## The pedersen hash circuit -/

/-- `bits.chunks(4)`. -/
def chunks4 : List α → List (List α)
  | b0 :: b1 :: b2 :: b3 :: rest => [b0, b1, b2, b3] :: chunks4 rest
  | [] => []
  | l => [l]

/-- The lookup loop of `pedersen_hash`: one `point_lookup` per
(window, table) pair. -/
def lookupsLoop : List (List Bit) → List (List F × List F) → CS →
    List (Num × Num) × CS
  | fourbits :: restBits, tb :: restGens, s =>
    let p := point_lookup tb.1 tb.2 fourbits s
    let rest := lookupsLoop restBits restGens p.2
    (p.1 :: rest.1, rest.2)
  | _, _, s => ([], s)

/-- The accumulation loop of `pedersen_hash` over `lookups[1..]`, carrying
the enumeration index `i`; `glen` is `generators.len()`.  The `x3` leg runs
only under the guard `i ≠ glen − 1`, exactly as in the source. -/
def pedersenAcc (j : JubJub) (glen : Nat) :
    Nat → List (Num × Num) → Num → Num → CS → Num × CS
  | _, [], _, cur_y, s => (cur_y, s)
  | i, nxt :: rest, cur_x, cur_y, s =>
    let x1y2 := cur_x.mul nxt.2 s
    let y1x2 := cur_y.mul nxt.1 x1y2.2
    let y1y2 := cur_y.mul nxt.2 y1x2.2
    let x1x2 := cur_x.mul nxt.1 y1y2.2
    let tau := y1y2.1.mul x1x2.1 x1x2.2
    let xstep : Num × CS :=
      if i ≠ glen - 1 then
        let x3val : Option F := do
          let a ← x1y2.1.value
          let b ← y1x2.1.value
          let t ← tau.1.value
          let inv ← inverse (t * j.d + 1)
          pure ((a + b) * inv)
        let x3 := tau.2.alloc x3val
        let s1 := x3.2.enforce
          ((LinearCombination.zero.addVar oneVar).addTerm j.d tau.1.var)
          (LinearCombination.zero.addVar x3.1)
          ((LinearCombination.zero.addVar x1y2.1.var).addVar y1x2.1.var)
        (Num.mk x3val x3.1, s1)
      else (cur_x, tau.2)
    let y3val : Option F := do
      let a ← x1x2.1.value
      let b ← y1y2.1.value
      let t ← tau.1.value
      let inv ← inverse (-(t * j.d) + 1)
      pure ((a + b) * inv)
    let y3 := xstep.2.alloc y3val
    let s2 := y3.2.enforce
      ((LinearCombination.zero.addVar oneVar).subTerm j.d tau.1.var)
      (LinearCombination.zero.addVar y3.1)
      ((LinearCombination.zero.addVar x1x2.1.var).addVar y1y2.1.var)
    pedersenAcc j glen (i + 1) rest xstep.1 (Num.mk y3val y3.1) s2

/-- `pedersen_hash`: 128 window lookups, then 127 constrained incomplete
additions; returns the accumulated y-coordinate `Num`. -/
def pedersen_hash (bits : List Bit) (generators : List (List F × List F))
    (j : JubJub) (s : CS) : Num × CS :=
  let lk := lookupsLoop (chunks4 bits) generators s
  let cur_x := (lk.1.headD (dfltNum, dfltNum)).1
  let cur_y := (lk.1.headD (dfltNum, dfltNum)).2
  pedersenAcc j generators.length 0 (lk.1.drop 1) cur_x cur_y lk.2

/-! ## The MiMC permutation -/

def MIMC_ROUNDS : ℕ := 300

/-- Native `mimc`: each round maps `(xl, xr)` to `(xr + (xl + cᵢ)³, xl)`. -/
def mimc (xl xr : F) (constants : List F) : F :=
  (constants.foldl (fun (st : F × F) c =>
    let tmp1 := st.1 + c
    let tmp2 := tmp1 ^ 2 * tmp1 + st.2
    (tmp2, st.1)) (xl, xr)).1

/-- The round loop of `MiMCDemo::synthesize`; returns the final `xl`
variable and its witness value.  (The source's `if i == MIMC_ROUNDS-1`
has identical branches — both plain `cs.alloc` — so no branch is modelled.) -/
def mimcRounds : List F → Variable → Option F → Variable → Option F → CS →
    (Variable × Option F) × CS
  | [], xl, xl_value, _, _, s => ((xl, xl_value), s)
  | c :: rest, xl, xl_value, xr, xr_value, s =>
    let tmp_value := xl_value.map (fun e => (e + c) ^ 2)
    let tmp := s.alloc tmp_value
    let s1 := tmp.2.enforce ((LinearCombination.zero.addVar xl).addTerm c oneVar)
                            ((LinearCombination.zero.addVar xl).addTerm c oneVar)
                            (LinearCombination.zero.addVar tmp.1)
    let new_xl_value :=
      xl_value.map (fun e => (e + c) * tmp_value.get! + xr_value.get!)
    let new_xl := s1.alloc new_xl_value
    let s2 := new_xl.2.enforce (LinearCombination.zero.addVar tmp.1)
                               ((LinearCombination.zero.addVar xl).addTerm c oneVar)
                               ((LinearCombination.zero.addVar new_xl.1).subVar xr)
    mimcRounds rest new_xl.1 new_xl_value xl xl_value s2

structure MiMCDemo where
  xl : Option F
  xr : Option F
  constants : List F

/-- `MiMCDemo::synthesize`: allocate the preimage pair, then the rounds. -/
def MiMCDemo.synthesize (self : MiMCDemo) (s : CS) : (Variable × Option F) × CS :=
  let xl := s.alloc self.xl
  let xr := xl.2.alloc self.xr
  mimcRounds self.constants xl.1 self.xl xr.1 self.xr xr.2

/-! ## Facts about the native curve model -/

/-- The polynomial core of the closure of the incomplete twisted-Edwards
addition law on the curve `−x² + y² = 1 + D·x²·y²`. -/
theorem edwards_poly (D x1 y1 x2 y2 : F)
    (h1 : -(x1 ^ 2) + y1 ^ 2 = D * x1 ^ 2 * y1 ^ 2 + 1)
    (h2 : -(x2 ^ 2) + y2 ^ 2 = D * x2 ^ 2 * y2 ^ 2 + 1) :
    (y1 * y2 + x1 * x2) ^ 2 * (1 + D * x1 * x2 * y1 * y2) ^ 2
      - (x1 * y2 + y1 * x2) ^ 2 * (1 - D * x1 * x2 * y1 * y2) ^ 2
    = (1 + D * x1 * x2 * y1 * y2) ^ 2 * (1 - D * x1 * x2 * y1 * y2) ^ 2
      + D * (x1 * y2 + y1 * x2) ^ 2 * (y1 * y2 + x1 * x2) ^ 2 := by
  linear_combination
    ((1 + (D * x1 * x2 * y1 * y2) ^ 2) * (y2 ^ 2 - x2 ^ 2)
      - D * (x2 ^ 2 * y2 ^ 2) * (y1 ^ 2 - x1 ^ 2 + 1 + D * (x1 ^ 2 * y1 ^ 2))) * h1
    + ((1 + (D * x1 * x2 * y1 * y2) ^ 2) * (1 + D * (x1 ^ 2 * y1 ^ 2))
      - D * (x1 ^ 2 * y1 ^ 2) * (y2 ^ 2 - x2 ^ 2 + 1 + D * (x2 ^ 2 * y2 ^ 2))) * h2

namespace Point

/-- `add_assign` in closed form: `none` exactly on a singular denominator,
otherwise the two division formulas. -/
theorem add_assign_eq (p q : Point) (j : JubJub) :
    p.add_assign q j =
      if 1 + j.d * p.x * q.x * p.y * q.y = 0 ∨ 1 - j.d * p.x * q.x * p.y * q.y = 0
      then none
      else some ⟨(p.x * q.y + p.y * q.x) / (1 + j.d * p.x * q.x * p.y * q.y),
                 (p.y * q.y + p.x * q.x) / (1 - j.d * p.x * q.x * p.y * q.y)⟩ := by
  have e1 : j.d * (p.y * q.y) * (p.x * q.x) + 1 = 1 + j.d * p.x * q.x * p.y * q.y := by
    ring
  have e2 : -(j.d * (p.y * q.y) * (p.x * q.x)) + 1
      = 1 - j.d * p.x * q.x * p.y * q.y := by
    ring
  simp only [Point.add_assign, inverse, e1, e2]
  by_cases h1 : 1 + j.d * p.x * q.x * p.y * q.y = 0 <;>
    by_cases h2 : 1 - j.d * p.x * q.x * p.y * q.y = 0 <;>
      simp [h1, h2, div_eq_mul_inv]

theorem add_preserves_curve (p q s' : Point) (j : JubJub)
    (hp : p.is_on_curve j) (hq : q.is_on_curve j)
    (h : p.add_assign q j = some s') : s'.is_on_curve j := by
  rw [add_assign_eq] at h
  by_cases hor : 1 + j.d * p.x * q.x * p.y * q.y = 0 ∨
      1 - j.d * p.x * q.x * p.y * q.y = 0
  · simp [hor] at h
  · simp only [hor, if_neg, if_false] at h
    push_neg at hor
    obtain ⟨h1, h2⟩ := hor
    obtain ⟨hx, hy⟩ : s'.x = (p.x * q.y + p.y * q.x) / (1 + j.d * p.x * q.x * p.y * q.y)
        ∧ s'.y = (p.y * q.y + p.x * q.x) / (1 - j.d * p.x * q.x * p.y * q.y) := by
      cases h.symm
      exact ⟨rfl, rfl⟩
    unfold is_on_curve at *
    rw [hx, hy]
    field_simp
    linear_combination edwards_poly j.d p.x p.y q.x q.y hp hq

theorem double_preserves_curve (p s' : Point) (j : JubJub) (hp : p.is_on_curve j)
    (h : p.double j = some s') : s'.is_on_curve j :=
  add_preserves_curve p p s' j hp hp h

/-- The point `Point::rand` builds from a successful square root lies on the
curve (the source also `assert!`s this). -/
theorem randCandidate_on_curve (x y n : F) (j : JubJub)
    (hc : randCandidate y j = some n) (hx : x * x = n) :
    (Point.mk x y).is_on_curve j := by
  unfold randCandidate inverse at hc
  by_cases hden : y * y * j.d + 1 = 0
  · simp [hden] at hc
  · simp only [if_neg hden, Option.map_some'] at hc
    have hn : (y * y - 1) * (y * y * j.d + 1)⁻¹ = n := Option.some.inj hc
    show -(x ^ 2) + y ^ 2 = j.d * x ^ 2 * y ^ 2 + 1
    have hx2 : x ^ 2 = (y * y - 1) * (y * y * j.d + 1)⁻¹ := by
      rw [pow_two, hx, ← hn]
    rw [hx2]
    field_simp
    ring

theorem randReturn_on_curve (x y : F) (j : JubJub)
    (h0 : (Point.mk x y).is_on_curve j)
    (p' : Point) (h : randReturn x y j = some p') : p'.is_on_curve j := by
  unfold randReturn at h
  simp only [bind, Option.bind_eq_some] at h
  obtain ⟨p1, h1, h⟩ := h
  obtain ⟨p2, h2, h3⟩ := h
  exact double_preserves_curve p2 p' j
    (double_preserves_curve p1 p2 j
      (double_preserves_curve (Point.mk x y) p1 j h0 h1) h2) h3

end Point

/-- Every table entry of `generate_constant_table` is a coordinate of one of
the input points. -/
theorem generate_constant_table_mem (ps : List Point) :
    ∀ tb ∈ generate_constant_table ps,
      (∀ v ∈ tb.1, ∃ p ∈ ps, v = p.x) ∧ (∀ v ∈ tb.2, ∃ p ∈ ps, v = p.y) := by
  induction ps using generate_constant_table.induct with
  | case1 => simp [generate_constant_table]
  | case2 p rest ih =>
    intro tb htb
    simp only [generate_constant_table] at htb
    rcases List.mem_cons.mp htb with h | h
    · subst h
      refine ⟨fun v hv => ?_, fun v hv => ?_⟩
      · obtain ⟨q, hq, rfl⟩ := List.mem_map.mp hv
        exact ⟨q, List.take_subset 16 _ hq, rfl⟩
      · obtain ⟨q, hq, rfl⟩ := List.mem_map.mp hv
        exact ⟨q, List.take_subset 16 _ hq, rfl⟩
    · refine ⟨fun v hv => ?_, fun v hv => ?_⟩
      · obtain ⟨q, hq, rfl⟩ := (ih tb h).1 v hv
        exact ⟨q, List.drop_subset 16 _ hq, rfl⟩
      · obtain ⟨q, hq, rfl⟩ := (ih tb h).2 v hv
        exact ⟨q, List.drop_subset 16 _ hq, rfl⟩

/-! ## Value semantics of the signed-boolean gates -/

namespace FunBit

/-- Combine two optional booleans all-or-nothing. -/
def omap2 (f : Bool → Bool → Bool) (x y : Option Bool) : Option Bool :=
  match x, y with
  | some a, some b => some (f a b)
  | _, _ => none

theorem funVal_not (a : FunBit) :
    a.not.funVal = a.funVal.map (fun x => !x) := by
  rcases a with b | ⟨v, _ | b⟩ | ⟨v, _ | b⟩ <;>
    simp [FunBit.not, funVal]

theorem funVal_xor (a b : FunBit) (s : CS) :
    ((FunBit.xor a b s).1).funVal = omap2 Bool.xor a.funVal b.funVal := by
  rcases a with ⟨_ | _⟩ | ⟨av, _ | ⟨_ | _⟩⟩ | ⟨av, _ | ⟨_ | _⟩⟩ <;>
    rcases b with ⟨_ | _⟩ | ⟨bv, _ | ⟨_ | _⟩⟩ | ⟨bv, _ | ⟨_ | _⟩⟩ <;>
      simp [FunBit.xor, xorAlloc, FunBit.not, funVal, omap2, CS.alloc]

/-- AND is value-homomorphic on known operands (on unknown operands the
constant-folding arms can produce a known `Constant false`, so the known
case is the right statement). -/
theorem funVal_and (a b : FunBit) (x y : Bool) (ha : a.funVal = some x)
    (hb : b.funVal = some y) (s : CS) :
    ((FunBit.and a b s).1).funVal = some (x && y) := by
  rcases a with ⟨_ | _⟩ | ⟨av, _ | ⟨_ | _⟩⟩ | ⟨av, _ | ⟨_ | _⟩⟩ <;>
    rcases b with ⟨_ | _⟩ | ⟨bv, _ | ⟨_ | _⟩⟩ | ⟨bv, _ | ⟨_ | _⟩⟩ <;>
      simp_all [FunBit.and, FunBit.not, funVal, CS.alloc]

theorem funVal_or (a b : FunBit) (x y : Bool) (ha : a.funVal = some x)
    (hb : b.funVal = some y) (s : CS) :
    ((FunBit.or a b s).1).funVal = some (x || y) := by
  unfold FunBit.or
  rw [funVal_not,
    funVal_and a.not b.not (!x) (!y)
      (by rw [funVal_not, ha]; rfl) (by rw [funVal_not, hb]; rfl)]
  cases x <;> cases y <;> rfl

end FunBit

/-! ## Value semantics of the borrow chain -/

/-- The full-subtractor borrow update the source's loop body computes:
`borrow_out = (NOT m AND b) OR (NOT (m XOR b) AND borrow_in)`. -/
def borrowStep (m b c : Bool) : Bool := (!m && b) || (!(Bool.xor m b) && c)

/-- The value of the whole borrow chain, little-endian pair order. -/
def borrowChain (ms bs : List Bool) : Bool :=
  List.foldl (fun c mb => borrowStep mb.1 mb.2 c) false (ms.zip bs)

theorem subChain_funVal : ∀ (ms : List Bool) (bits : List Bit) (bs : List Bool),
    bits.map Bit.val = bs.map some →
    ∀ (carry : FunBit) (c0 : Bool), carry.funVal = some c0 →
    ∀ (s : CS),
      ((subChain (ms.zip bits) carry s).1).funVal =
        some (List.foldl (fun c mb => borrowStep mb.1 mb.2 c) c0 (ms.zip bs)) := by
  intro ms
  induction ms with
  | nil =>
    intro bits bs _ carry c0 hc s
    simp [subChain, hc]
  | cons m ms ih =>
    intro bits bs h carry c0 hc s
    cases bits with
    | nil =>
      cases bs with
      | nil => simp [subChain, hc]
      | cons b bs => simp at h
    | cons bit bits =>
      cases bs with
      | nil => simp at h
      | cons b bs =>
        simp only [List.map_cons, List.cons.injEq] at h
        obtain ⟨hb, htail⟩ := h
        simp only [List.zip_cons_cons, subChain, List.foldl_cons]
        apply ih bits bs htail
        have hbF : (FunBit.from_bit bit).funVal = some b := by
          simp [FunBit.from_bit, FunBit.funVal, hb]
        have ht1 : ∀ s', ((FunBit.xor (.Constant m) (.from_bit bit) s').1).funVal
            = some (Bool.xor m b) := by
          intro s'
          rw [FunBit.funVal_xor, hbF]
          rfl
        have ht2 : ∀ s', ((FunBit.and (FunBit.Constant m).not
            (.from_bit bit) s').1).funVal = some (!m && b) := by
          intro s'
          exact FunBit.funVal_and _ _ (!m) b (by rw [FunBit.funVal_not]; rfl) hbF s'
        refine FunBit.funVal_or _ _ _ _ (ht2 _) ?_ _
        exact FunBit.funVal_and _ _ (!(Bool.xor m b)) c0
          (by rw [FunBit.funVal_not, ht1]; rfl) hc _

/-- Allocated bits keep exactly the requested closure values. -/
theorem allocBits_val : ∀ (vs : List (Option Bool)) (s : CS),
    (allocBits vs s).1.map Bit.val = vs := by
  intro vs
  induction vs with
  | nil => intro s; rfl
  | cons v rest ih =>
    intro s
    simp [allocBits, Bit.alloc, ih]

/-- The integer a little-endian bit pattern stands for. -/
def lval (bs : List Bool) : ℕ :=
  bs.foldr (fun b acc => (if b then 1 else 0) + 2 * acc) 0

/-- The borrow recurrence exactly as the claim words it (spec-modelled, for
comparison with the code): walk both bit sequences most-significant-first
and update `borrow_out = (NOT m AND b) OR ((m XOR b) AND borrow_in)`. -/
def claimBorrowChain (ms bs : List Bool) : Bool :=
  List.foldl (fun c mb => (!mb.1 && mb.2) || (Bool.xor mb.1 mb.2 && c)) false
    ((ms.zip bs).reverse)

/-- The little-endian 255-bit pattern of the value 2. -/
def twoBits : List Bool := (List.range 255).map (fun i => Nat.testBit 2 i)

/-- The four-selector-bit run of the `test_lookup` circuit: allocate the
four bits from a fresh system, precompute the four shared AND terms exactly
as `point_lookup` does, then run one `coordinate_lookup`. -/
def lookupRun (table : List F) (b0 b1 b2 b3 : Option Bool) : Num × CS :=
  let v := allocBits [b0, b1, b2, b3] CS.init
  let a := Bit.and (v.1.getD 1 dfltBit) (v.1.getD 2 dfltBit) v.2
  let b := Bit.and (v.1.getD 3 dfltBit) (v.1.getD 1 dfltBit) a.2
  let c := Bit.and (v.1.getD 3 dfltBit) (v.1.getD 2 dfltBit) b.2
  let d := Bit.and c.1 (v.1.getD 1 dfltBit) c.2
  coordinate_lookup table v.1 a.1 b.1 c.1 d.1 d.2

/-! ## Facts about the MiMC circuit -/

/-- One native MiMC round folds into the accumulator. -/
theorem mimc_cons (xl xr c : F) (rest : List F) :
    mimc xl xr (c :: rest) = mimc ((xl + c) ^ 2 * (xl + c) + xr) xl rest := by
  simp [mimc]

/-- With known inputs, the value carried through the round loop is the
native MiMC iteration. -/
theorem mimcRounds_value (constants : List F) :
    ∀ (xl xr : F) (xlv xrv : Variable) (s : CS),
      ((mimcRounds constants xlv (some xl) xrv (some xr) s).1).2 =
        some (mimc xl xr constants) := by
  induction constants with
  | nil =>
    intro xl xr xlv xrv s
    simp [mimcRounds, mimc]
  | cons c rest ih =>
    intro xl xr xlv xrv s
    have hAB : (xl + c) * (xl + c) ^ 2 + xr = (xl + c) ^ 2 * (xl + c) + xr := by
      ring
    simp only [mimcRounds, CS.alloc, Option.map_some', Option.get!_some]
    rw [hAB, ih, mimc_cons]

/-! ## Claim theorems -/

/-- C1: evaluation of the range-check gadget at the failing input — the
input bit pattern that is exactly the little-endian bits of the modulus
(integer value `r`, which is `≥ r`).  The borrow chain of
`assert_less_than_r` ends `false` there, so `assert_is_false` is handed a
borrow whose witness is 0 and the emitted system is satisfied by that
witness: the gadget accepts a pattern whose value is not below the modulus
(it enforces `value ≤ r`, not `value < r`). -/
theorem C1_modulus_pattern_accepted :
    lval rBits = r ∧
    ((subChain (rBits.zip (allocBits (rBits.map some) CS.init).1)
        (FunBit.Constant false) (allocBits (rBits.map some) CS.init).2).1).funVal
      = some false := by
  refine ⟨by decide, ?_⟩
  rw [subChain_funVal rBits _ rBits (allocBits_val _ _) (FunBit.Constant false) false rfl]
  decide

/-- C7 counterexample: at the input pattern of the value 2 (clearly below
the modulus), the claim's recurrence (MSB-first walk with
`borrow_out = (NOT m AND b) OR ((m XOR b) AND borrow_in)`) ends `true`,
while the borrow actually computed by the gadget's loop ends `false` —
the claim mis-states both the walk direction and the borrow formula. -/
theorem C7_claim_formula_diverges :
    claimBorrowChain rBits twoBits = true ∧
    ((subChain (rBits.zip (allocBits (twoBits.map some) CS.init).1)
        (FunBit.Constant false) (allocBits (twoBits.map some) CS.init).2).1).funVal
      = some false := by
  refine ⟨by decide, ?_⟩
  rw [subChain_funVal rBits _ twoBits (allocBits_val _ _) (FunBit.Constant false) false rfl]
  decide

/-- C7 (amended): the range-check gadget walks the modulus bits and the
input bits least-significant-first (the modulus pattern is reversed into
little-endian order and zipped with the little-endian input), maintaining a
borrow updated by `borrow_out = (NOT m AND b) OR (NOT (m XOR b) AND
borrow_in)` (the intermediate `m XOR b` is formed; no three-way diff is
computed), and the final borrow is handed to `assert_is_false`. -/
theorem C7_borrow_chain_correct_form :
    rBits = (List.range 255).map (fun i => r.testBit i) ∧
    ∀ (bits : List Bit) (bs : List Bool), bits.map Bit.val = bs.map some →
      ∀ (s : CS),
        ((subChain (rBits.zip bits) (FunBit.Constant false) s).1).funVal
          = some (borrowChain rBits bs) := by
  constructor
  · decide
  · intro bits bs h s
    exact subChain_funVal rBits bits bs h (FunBit.Constant false) false rfl s

/-- Witness for the amended C7 at the all-false input pattern. -/
theorem C7_borrow_chain_correct_form_witness :
    ((subChain (rBits.zip (allocBits ((List.replicate 255 false).map some)
        CS.init).1) (FunBit.Constant false) CS.init).1).funVal
      = some (borrowChain rBits (List.replicate 255 false)) :=
  C7_borrow_chain_correct_form.2 _ (List.replicate 255 false)
    (allocBits_val _ _) CS.init

theorem synthState_succ (cs : List F) (i : Nat) :
    synthState cs (i + 1) = synthStep cs (synthState cs i) i := by
  unfold synthState
  rw [List.range_succ, List.foldl_append, List.foldl_cons, List.foldl_nil]

theorem synth_eq_state (cs : List F) : synth 4 cs = (synthState cs 16).2 := rfl

theorem mapIdxF_length {α β : Type} (f : Nat → α → β) :
    ∀ (v : List α) (off : Nat), (mapIdxF f off v).length = v.length := by
  intro v
  induction v with
  | nil => intro off; rfl
  | cons x xs ih => intro off; simp [mapIdxF, ih]

theorem mapIdxF_getD (f : Nat → F → F) :
    ∀ (v : List F) (off k : Nat),
      (mapIdxF f off v).getD k 0 = if k < v.length then f (off + k) (v.getD k 0)
        else 0 := by
  intro v
  induction v with
  | nil => intro off k; simp [mapIdxF]
  | cons x xs ih =>
    intro off k
    cases k with
    | zero => simp [mapIdxF]
    | succ k =>
      simp only [mapIdxF, List.getD_cons_succ, ih (off + 1) k,
        List.length_cons]
      have harith : off + 1 + k = off + (k + 1) := by omega
      rw [harith]
      by_cases h : k < xs.length
      · rw [if_pos h, if_pos (by omega)]
      · rw [if_neg h, if_neg (by omega)]

theorem synthState_fst_length (cs : List F) :
    ∀ i, (synthState cs i).1.length = 16 := by
  intro i
  induction i with
  | zero => rfl
  | succ i ih =>
    rw [synthState_succ]
    simp [synthStep, mapIdxF_length, ih]

theorem synthState_snd_length (cs : List F) :
    ∀ i, (synthState cs i).2.length = i := by
  intro i
  induction i with
  | zero => rfl
  | succ i ih =>
    rw [synthState_succ]
    simp [synthStep, ih]

theorem synthState_snd_getD (cs : List F) :
    ∀ i k, k < i → (synthState cs i).2.getD k 0
      = (synthState cs (k + 1)).2.getD k 0 := by
  intro i
  induction i with
  | zero => intro k hk; omega
  | succ i ih =>
    intro k hk
    by_cases hik : k = i
    · subst hik; rfl
    · have hk' : k < i := by omega
      rw [synthState_succ]
      show ((synthState cs i).2 ++ _).getD k 0 = _
      rw [List.getD_append _ _ _ _ (by rw [synthState_snd_length]; omega)]
      exact ih k hk'

theorem synth_getD_eq_A (cs : List F) (k : Nat) (hk : k < 16) :
    (synth 4 cs).getD k 0 = synthA cs k := by
  rw [synth_eq_state]
  exact synthState_snd_getD cs 16 k hk

theorem synthA_eq (cs : List F) (k : Nat) :
    synthA cs k = -((synthState cs k).1.getD k 0) + cs.getD k 0 := by
  unfold synthA
  rw [synthState_succ]
  show ((synthState cs k).2 ++ [_]).getD k 0 = _
  have hlen : (synthState cs k).2.length = k := synthState_snd_length cs k
  rw [List.getD_eq_getElem?_getD, List.getElem?_append_right (by omega)]
  simp [hlen]

theorem getD_replicate (k n : Nat) :
    (List.replicate n (0 : F)).getD k 0 = 0 := by
  induction n generalizing k with
  | zero => simp
  | succ n ih =>
    cases k with
    | zero => rfl
    | succ k => simpa [List.replicate] using ih k

/-- Loop invariant: after `i` passes, `v[b]` holds the sum of all finished
difference constants at proper sub-indices of `b`. -/
theorem synth_v_invariant (cs : List F) :
    ∀ i b, b < 16 →
      (synthState cs i).1.getD b 0
        = ((List.range i).map
            (fun j => if j + 1 ≤ b ∧ b &&& j = j then synthA cs j else 0)).sum := by
  intro i
  induction i with
  | zero =>
    intro b hb
    have h0 : synthState cs 0 = (List.replicate 16 0, []) := rfl
    rw [h0]
    show (List.replicate 16 (0 : F)).getD b 0 = _
    rw [getD_replicate]
    rfl
  | succ i ih =>
    intro b hb
    rw [synthState_succ, List.range_succ, List.map_append, List.sum_append]
    show (mapIdxF _ 0 (synthState cs i).1).getD b 0 = _
    rw [mapIdxF_getD, synthState_fst_length, if_pos hb, Nat.zero_add, ih b hb]
    simp only [List.map_cons, List.map_nil, List.sum_cons, List.sum_nil,
      add_zero]
    have hcur : -((synthState cs i).1.getD i 0) + cs.getD i 0 = synthA cs i :=
      (synthA_eq cs i).symm
    by_cases hcond : i + 1 ≤ b ∧ b &&& i = i
    · rw [if_pos hcond, if_pos hcond, hcur]
    · rw [if_neg hcond, if_neg hcond, add_zero]

theorem sum_single_range (x : F) :
    ∀ (n b : Nat), b < n →
      ((List.range n).map (fun j => if j = b then x else 0)).sum = x := by
  intro n
  induction n with
  | zero => intro b hb; omega
  | succ n ih =>
    intro b hb
    rw [List.range_succ, List.map_append, List.sum_append]
    by_cases hnb : b = n
    · subst hnb
      have h0 : ((List.range b).map (fun j => if j = b then x else 0)).sum = 0 := by
        apply List.sum_eq_zero
        intro y hy
        obtain ⟨j, hj, rfl⟩ := List.mem_map.mp hy
        rw [List.mem_range] at hj
        rw [if_neg (by omega)]
      rw [h0]
      simp
    · have hbn : b < n := by omega
      rw [ih b hbn]
      have h1 : ((List.map (fun j => if j = b then x else 0)) [n]).sum = 0 := by
        simp [show ¬(n = b) by omega]
      rw [h1, add_zero]

/-- Pointwise-sum splitting for mapped list sums. -/
theorem sum_map_add (l : List Nat) (f g : Nat → F) :
    (l.map (fun j => f j + g j)).sum = (l.map f).sum + (l.map g).sum := by
  induction l with
  | nil => simp
  | cons x xs ih =>
    simp only [List.map_cons, List.sum_cons, ih]
    ring

/-- The zeta-transform property of `synth` (what `test_synth` checks): for
every index `b`, the difference constants at sub-indices of `b` sum back to
the table constant at `b`. -/
theorem synth_zeta (cs : List F) (b : Nat) (hb : b < 16) :
    ((List.range 16).map
      (fun j => if b &&& j = j then (synth 4 cs).getD j 0 else 0)).sum
      = cs.getD b 0 := by
  have hpt : ∀ j ∈ List.range 16,
      (if b &&& j = j then (synth 4 cs).getD j 0 else 0)
        = (if j + 1 ≤ b ∧ b &&& j = j then synthA cs j else 0)
          + (if j = b then synthA cs b else 0) := by
    intro j hj
    rw [List.mem_range] at hj
    by_cases hjb : j = b
    · subst hjb
      rw [if_pos (Nat.and_self j), if_neg (by omega), if_pos rfl,
        synth_getD_eq_A cs j hj, zero_add]
    · by_cases hsub : b &&& j = j
      · have hle : j ≤ b := by
          calc j = b &&& j := hsub.symm
          _ ≤ b := Nat.and_le_left
        rw [if_pos hsub, synth_getD_eq_A cs j hj,
          if_pos ⟨by omega, hsub⟩, if_neg hjb, add_zero]
      · rw [if_neg hsub, if_neg (fun hc => hsub hc.2), if_neg hjb, add_zero]
  rw [List.map_congr_left hpt, sum_map_add, sum_single_range (synthA cs b) 16 b hb]
  have hv := synth_v_invariant cs 16 b hb
  rw [← hv, synthA_eq cs b]
  have hstable : (synthState cs 16).1.getD b 0 = (synthState cs b).1.getD b 0 := by
    rw [synth_v_invariant cs 16 b hb, synth_v_invariant cs b b hb]
    have hgen : ∀ n, b ≤ n →
        ((List.range n).map
          (fun j => if j + 1 ≤ b ∧ b &&& j = j then synthA cs j else 0)).sum
        = ((List.range b).map
          (fun j => if j + 1 ≤ b ∧ b &&& j = j then synthA cs j else 0)).sum := by
      intro n hn
      induction n, hn using Nat.le_induction with
      | base => rfl
      | succ n hn ihn =>
        rw [List.range_succ, List.map_append, List.sum_append]
        have h1 : ((List.map
            (fun j => if j + 1 ≤ b ∧ b &&& j = j then synthA cs j else 0)) [n]).sum
            = 0 := by
          simp [show ¬(n + 1 ≤ b) by omega]
        rw [h1, add_zero, ihn]
    exact hgen 16 (by omega)
  rw [hstable]
  ring

/-- Filter-sum form of a masked sum. -/
theorem filter_sum_eq_ite_sum (p : Nat → Bool) (f : Nat → F) :
    ∀ l : List Nat,
      ((l.filter p).map f).sum = (l.map (fun j => if p j then f j else 0)).sum := by
  intro l
  induction l with
  | nil => rfl
  | cons x xs ih =>
    by_cases hp : p x <;> simp [List.filter_cons, hp, ih]

/-- The zeta-transform property of `synth`, filter form. -/
theorem synth_zeta_filter (cs : List F) (b : Nat) (hb : b < 16) :
    (((List.range 16).filter (fun j => b &&& j == j)).map
      (fun j => (synth 4 cs).getD j 0)).sum = cs.getD b 0 := by
  rw [filter_sum_eq_ite_sum]
  have hpt : ∀ j ∈ List.range 16,
      (if (b &&& j == j) then (synth 4 cs).getD j 0 else 0)
        = (if b &&& j = j then (synth 4 cs).getD j 0 else 0) := by
    intro j _
    by_cases h : b &&& j = j
    · rw [if_pos (by simp [h]), if_pos h]
    · rw [if_neg (by simp [h]), if_neg h]
  rw [List.map_congr_left hpt]
  exact synth_zeta cs b hb

set_option maxHeartbeats 4000000 in
/-- C5: for every 16-entry constant table and every known assignment of the four
selector bits, the Num returned by coordinate_lookup has witness value
table[b0 + 2*b1 + 4*b2 + 8*b3], the gadget appends exactly one constraint to the
system, and that constraint is satisfied by the produced witness. -/
theorem C5_window_lookup_exact (t0 t1 t2 t3 t4 t5 t6 t7 t8 t9 t10 t11 t12 t13 t14 t15 : F)
    (b0 b1 b2 b3 : Bool) :
    (∀ (tb : List F) (bits : List Bit) (a b c d : Bit) (s : CS),
        ∃ cons, (coordinate_lookup tb bits a b c d s).2.constraints
          = s.constraints ++ [cons]) ∧
    (lookupRun [t0, t1, t2, t3, t4, t5, t6, t7, t8, t9, t10, t11, t12, t13, t14, t15] (some b0) (some b1) (some b2) (some b3)).1.value
      = some (List.getD [t0, t1, t2, t3, t4, t5, t6, t7, t8, t9, t10, t11, t12, t13, t14, t15]
          ((if b0 then 1 else 0) + 2 * (if b1 then 1 else 0)
            + 4 * (if b2 then 1 else 0) + 8 * (if b3 then 1 else 0)) 0) ∧
    ∃ cons,
      (lookupRun [t0, t1, t2, t3, t4, t5, t6, t7, t8, t9, t10, t11, t12, t13, t14, t15] (some b0) (some b1) (some b2) (some b3)).2.constraints.getLast?
        = some cons ∧
      cons.holds (lookupRun [t0, t1, t2, t3, t4, t5, t6, t7, t8, t9, t10, t11, t12, t13, t14, t15] (some b0) (some b1) (some b2) (some b3)).2.asgn := by
  refine ⟨fun tb bits a b c d s => ⟨_, rfl⟩, ?_⟩
  cases b0 <;> cases b1 <;> cases b2 <;> cases b3
  · refine ⟨rfl, _, rfl, ?_⟩
    have hz := synth_zeta_filter [t0, t1, t2, t3, t4, t5, t6, t7, t8, t9, t10, t11, t12, t13, t14, t15] 0 (by norm_num)
    rw [show ((List.range 16).filter (fun j => 0 &&& j == j)) = [0] from rfl,
      show List.getD [t0, t1, t2, t3, t4, t5, t6, t7, t8, t9, t10, t11, t12, t13, t14, t15] 0 0 = t0 from rfl] at hz
    simp only [List.map_cons, List.map_nil, List.sum_cons, List.sum_nil, add_zero] at hz
    simp only [lookupRun, allocBits, Bit.alloc, Bit.and, coordinate_lookup,
      windowIndex, CS.alloc, CS.enforce, CS.init, CS.asgn, Constraint.holds,
      LinearCombination.eval, LinearCombination.zero,
      LinearCombination.addTerm, LinearCombination.addVar,
      LinearCombination.subTerm, LinearCombination.subVar, oneVar, boolToF,
      dfltBit, List.foldr_cons, List.foldr_nil, List.map_cons, List.map_nil,
      List.sum_cons, List.sum_nil, Option.map_some', Option.getD_some,
      List.append_nil, List.nil_append, List.cons_append,
      List.getD_cons_zero, List.getD_cons_succ, reduceIte]
    simp at hz ⊢
    linear_combination hz
  · refine ⟨rfl, _, rfl, ?_⟩
    have hz := synth_zeta_filter [t0, t1, t2, t3, t4, t5, t6, t7, t8, t9, t10, t11, t12, t13, t14, t15] 8 (by norm_num)
    rw [show ((List.range 16).filter (fun j => 8 &&& j == j)) = [0, 8] from rfl,
      show List.getD [t0, t1, t2, t3, t4, t5, t6, t7, t8, t9, t10, t11, t12, t13, t14, t15] 8 0 = t8 from rfl] at hz
    simp only [List.map_cons, List.map_nil, List.sum_cons, List.sum_nil, add_zero] at hz
    simp only [lookupRun, allocBits, Bit.alloc, Bit.and, coordinate_lookup,
      windowIndex, CS.alloc, CS.enforce, CS.init, CS.asgn, Constraint.holds,
      LinearCombination.eval, LinearCombination.zero,
      LinearCombination.addTerm, LinearCombination.addVar,
      LinearCombination.subTerm, LinearCombination.subVar, oneVar, boolToF,
      dfltBit, List.foldr_cons, List.foldr_nil, List.map_cons, List.map_nil,
      List.sum_cons, List.sum_nil, Option.map_some', Option.getD_some,
      List.append_nil, List.nil_append, List.cons_append,
      List.getD_cons_zero, List.getD_cons_succ, reduceIte]
    simp at hz ⊢
    linear_combination hz
  · refine ⟨rfl, _, rfl, ?_⟩
    have hz := synth_zeta_filter [t0, t1, t2, t3, t4, t5, t6, t7, t8, t9, t10, t11, t12, t13, t14, t15] 4 (by norm_num)
    rw [show ((List.range 16).filter (fun j => 4 &&& j == j)) = [0, 4] from rfl,
      show List.getD [t0, t1, t2, t3, t4, t5, t6, t7, t8, t9, t10, t11, t12, t13, t14, t15] 4 0 = t4 from rfl] at hz
    simp only [List.map_cons, List.map_nil, List.sum_cons, List.sum_nil, add_zero] at hz
    simp only [lookupRun, allocBits, Bit.alloc, Bit.and, coordinate_lookup,
      windowIndex, CS.alloc, CS.enforce, CS.init, CS.asgn, Constraint.holds,
      LinearCombination.eval, LinearCombination.zero,
      LinearCombination.addTerm, LinearCombination.addVar,
      LinearCombination.subTerm, LinearCombination.subVar, oneVar, boolToF,
      dfltBit, List.foldr_cons, List.foldr_nil, List.map_cons, List.map_nil,
      List.sum_cons, List.sum_nil, Option.map_some', Option.getD_some,
      List.append_nil, List.nil_append, List.cons_append,
      List.getD_cons_zero, List.getD_cons_succ, reduceIte]
    simp at hz ⊢
    linear_combination hz
  · refine ⟨rfl, _, rfl, ?_⟩
    have hz := synth_zeta_filter [t0, t1, t2, t3, t4, t5, t6, t7, t8, t9, t10, t11, t12, t13, t14, t15] 12 (by norm_num)
    rw [show ((List.range 16).filter (fun j => 12 &&& j == j)) = [0, 4, 8, 12] from rfl,
      show List.getD [t0, t1, t2, t3, t4, t5, t6, t7, t8, t9, t10, t11, t12, t13, t14, t15] 12 0 = t12 from rfl] at hz
    simp only [List.map_cons, List.map_nil, List.sum_cons, List.sum_nil, add_zero] at hz
    simp only [lookupRun, allocBits, Bit.alloc, Bit.and, coordinate_lookup,
      windowIndex, CS.alloc, CS.enforce, CS.init, CS.asgn, Constraint.holds,
      LinearCombination.eval, LinearCombination.zero,
      LinearCombination.addTerm, LinearCombination.addVar,
      LinearCombination.subTerm, LinearCombination.subVar, oneVar, boolToF,
      dfltBit, List.foldr_cons, List.foldr_nil, List.map_cons, List.map_nil,
      List.sum_cons, List.sum_nil, Option.map_some', Option.getD_some,
      List.append_nil, List.nil_append, List.cons_append,
      List.getD_cons_zero, List.getD_cons_succ, reduceIte]
    simp at hz ⊢
    linear_combination hz
  · refine ⟨rfl, _, rfl, ?_⟩
    have hz := synth_zeta_filter [t0, t1, t2, t3, t4, t5, t6, t7, t8, t9, t10, t11, t12, t13, t14, t15] 2 (by norm_num)
    rw [show ((List.range 16).filter (fun j => 2 &&& j == j)) = [0, 2] from rfl,
      show List.getD [t0, t1, t2, t3, t4, t5, t6, t7, t8, t9, t10, t11, t12, t13, t14, t15] 2 0 = t2 from rfl] at hz
    simp only [List.map_cons, List.map_nil, List.sum_cons, List.sum_nil, add_zero] at hz
    simp only [lookupRun, allocBits, Bit.alloc, Bit.and, coordinate_lookup,
      windowIndex, CS.alloc, CS.enforce, CS.init, CS.asgn, Constraint.holds,
      LinearCombination.eval, LinearCombination.zero,
      LinearCombination.addTerm, LinearCombination.addVar,
      LinearCombination.subTerm, LinearCombination.subVar, oneVar, boolToF,
      dfltBit, List.foldr_cons, List.foldr_nil, List.map_cons, List.map_nil,
      List.sum_cons, List.sum_nil, Option.map_some', Option.getD_some,
      List.append_nil, List.nil_append, List.cons_append,
      List.getD_cons_zero, List.getD_cons_succ, reduceIte]
    simp at hz ⊢
    linear_combination hz
  · refine ⟨rfl, _, rfl, ?_⟩
    have hz := synth_zeta_filter [t0, t1, t2, t3, t4, t5, t6, t7, t8, t9, t10, t11, t12, t13, t14, t15] 10 (by norm_num)
    rw [show ((List.range 16).filter (fun j => 10 &&& j == j)) = [0, 2, 8, 10] from rfl,
      show List.getD [t0, t1, t2, t3, t4, t5, t6, t7, t8, t9, t10, t11, t12, t13, t14, t15] 10 0 = t10 from rfl] at hz
    simp only [List.map_cons, List.map_nil, List.sum_cons, List.sum_nil, add_zero] at hz
    simp only [lookupRun, allocBits, Bit.alloc, Bit.and, coordinate_lookup,
      windowIndex, CS.alloc, CS.enforce, CS.init, CS.asgn, Constraint.holds,
      LinearCombination.eval, LinearCombination.zero,
      LinearCombination.addTerm, LinearCombination.addVar,
      LinearCombination.subTerm, LinearCombination.subVar, oneVar, boolToF,
      dfltBit, List.foldr_cons, List.foldr_nil, List.map_cons, List.map_nil,
      List.sum_cons, List.sum_nil, Option.map_some', Option.getD_some,
      List.append_nil, List.nil_append, List.cons_append,
      List.getD_cons_zero, List.getD_cons_succ, reduceIte]
    simp at hz ⊢
    linear_combination hz
  · refine ⟨rfl, _, rfl, ?_⟩
    have hz := synth_zeta_filter [t0, t1, t2, t3, t4, t5, t6, t7, t8, t9, t10, t11, t12, t13, t14, t15] 6 (by norm_num)
    rw [show ((List.range 16).filter (fun j => 6 &&& j == j)) = [0, 2, 4, 6] from rfl,
      show List.getD [t0, t1, t2, t3, t4, t5, t6, t7, t8, t9, t10, t11, t12, t13, t14, t15] 6 0 = t6 from rfl] at hz
    simp only [List.map_cons, List.map_nil, List.sum_cons, List.sum_nil, add_zero] at hz
    simp only [lookupRun, allocBits, Bit.alloc, Bit.and, coordinate_lookup,
      windowIndex, CS.alloc, CS.enforce, CS.init, CS.asgn, Constraint.holds,
      LinearCombination.eval, LinearCombination.zero,
      LinearCombination.addTerm, LinearCombination.addVar,
      LinearCombination.subTerm, LinearCombination.subVar, oneVar, boolToF,
      dfltBit, List.foldr_cons, List.foldr_nil, List.map_cons, List.map_nil,
      List.sum_cons, List.sum_nil, Option.map_some', Option.getD_some,
      List.append_nil, List.nil_append, List.cons_append,
      List.getD_cons_zero, List.getD_cons_succ, reduceIte]
    simp at hz ⊢
    linear_combination hz
  · refine ⟨rfl, _, rfl, ?_⟩
    have hz := synth_zeta_filter [t0, t1, t2, t3, t4, t5, t6, t7, t8, t9, t10, t11, t12, t13, t14, t15] 14 (by norm_num)
    rw [show ((List.range 16).filter (fun j => 14 &&& j == j)) = [0, 2, 4, 6, 8, 10, 12, 14] from rfl,
      show List.getD [t0, t1, t2, t3, t4, t5, t6, t7, t8, t9, t10, t11, t12, t13, t14, t15] 14 0 = t14 from rfl] at hz
    simp only [List.map_cons, List.map_nil, List.sum_cons, List.sum_nil, add_zero] at hz
    simp only [lookupRun, allocBits, Bit.alloc, Bit.and, coordinate_lookup,
      windowIndex, CS.alloc, CS.enforce, CS.init, CS.asgn, Constraint.holds,
      LinearCombination.eval, LinearCombination.zero,
      LinearCombination.addTerm, LinearCombination.addVar,
      LinearCombination.subTerm, LinearCombination.subVar, oneVar, boolToF,
      dfltBit, List.foldr_cons, List.foldr_nil, List.map_cons, List.map_nil,
      List.sum_cons, List.sum_nil, Option.map_some', Option.getD_some,
      List.append_nil, List.nil_append, List.cons_append,
      List.getD_cons_zero, List.getD_cons_succ, reduceIte]
    simp at hz ⊢
    linear_combination hz
  · refine ⟨rfl, _, rfl, ?_⟩
    have hz := synth_zeta_filter [t0, t1, t2, t3, t4, t5, t6, t7, t8, t9, t10, t11, t12, t13, t14, t15] 1 (by norm_num)
    rw [show ((List.range 16).filter (fun j => 1 &&& j == j)) = [0, 1] from rfl,
      show List.getD [t0, t1, t2, t3, t4, t5, t6, t7, t8, t9, t10, t11, t12, t13, t14, t15] 1 0 = t1 from rfl] at hz
    simp only [List.map_cons, List.map_nil, List.sum_cons, List.sum_nil, add_zero] at hz
    simp only [lookupRun, allocBits, Bit.alloc, Bit.and, coordinate_lookup,
      windowIndex, CS.alloc, CS.enforce, CS.init, CS.asgn, Constraint.holds,
      LinearCombination.eval, LinearCombination.zero,
      LinearCombination.addTerm, LinearCombination.addVar,
      LinearCombination.subTerm, LinearCombination.subVar, oneVar, boolToF,
      dfltBit, List.foldr_cons, List.foldr_nil, List.map_cons, List.map_nil,
      List.sum_cons, List.sum_nil, Option.map_some', Option.getD_some,
      List.append_nil, List.nil_append, List.cons_append,
      List.getD_cons_zero, List.getD_cons_succ, reduceIte]
    simp at hz ⊢
    linear_combination hz
  · refine ⟨rfl, _, rfl, ?_⟩
    have hz := synth_zeta_filter [t0, t1, t2, t3, t4, t5, t6, t7, t8, t9, t10, t11, t12, t13, t14, t15] 9 (by norm_num)
    rw [show ((List.range 16).filter (fun j => 9 &&& j == j)) = [0, 1, 8, 9] from rfl,
      show List.getD [t0, t1, t2, t3, t4, t5, t6, t7, t8, t9, t10, t11, t12, t13, t14, t15] 9 0 = t9 from rfl] at hz
    simp only [List.map_cons, List.map_nil, List.sum_cons, List.sum_nil, add_zero] at hz
    simp only [lookupRun, allocBits, Bit.alloc, Bit.and, coordinate_lookup,
      windowIndex, CS.alloc, CS.enforce, CS.init, CS.asgn, Constraint.holds,
      LinearCombination.eval, LinearCombination.zero,
      LinearCombination.addTerm, LinearCombination.addVar,
      LinearCombination.subTerm, LinearCombination.subVar, oneVar, boolToF,
      dfltBit, List.foldr_cons, List.foldr_nil, List.map_cons, List.map_nil,
      List.sum_cons, List.sum_nil, Option.map_some', Option.getD_some,
      List.append_nil, List.nil_append, List.cons_append,
      List.getD_cons_zero, List.getD_cons_succ, reduceIte]
    simp at hz ⊢
    linear_combination hz
  · refine ⟨rfl, _, rfl, ?_⟩
    have hz := synth_zeta_filter [t0, t1, t2, t3, t4, t5, t6, t7, t8, t9, t10, t11, t12, t13, t14, t15] 5 (by norm_num)
    rw [show ((List.range 16).filter (fun j => 5 &&& j == j)) = [0, 1, 4, 5] from rfl,
      show List.getD [t0, t1, t2, t3, t4, t5, t6, t7, t8, t9, t10, t11, t12, t13, t14, t15] 5 0 = t5 from rfl] at hz
    simp only [List.map_cons, List.map_nil, List.sum_cons, List.sum_nil, add_zero] at hz
    simp only [lookupRun, allocBits, Bit.alloc, Bit.and, coordinate_lookup,
      windowIndex, CS.alloc, CS.enforce, CS.init, CS.asgn, Constraint.holds,
      LinearCombination.eval, LinearCombination.zero,
      LinearCombination.addTerm, LinearCombination.addVar,
      LinearCombination.subTerm, LinearCombination.subVar, oneVar, boolToF,
      dfltBit, List.foldr_cons, List.foldr_nil, List.map_cons, List.map_nil,
      List.sum_cons, List.sum_nil, Option.map_some', Option.getD_some,
      List.append_nil, List.nil_append, List.cons_append,
      List.getD_cons_zero, List.getD_cons_succ, reduceIte]
    simp at hz ⊢
    linear_combination hz
  · refine ⟨rfl, _, rfl, ?_⟩
    have hz := synth_zeta_filter [t0, t1, t2, t3, t4, t5, t6, t7, t8, t9, t10, t11, t12, t13, t14, t15] 13 (by norm_num)
    rw [show ((List.range 16).filter (fun j => 13 &&& j == j)) = [0, 1, 4, 5, 8, 9, 12, 13] from rfl,
      show List.getD [t0, t1, t2, t3, t4, t5, t6, t7, t8, t9, t10, t11, t12, t13, t14, t15] 13 0 = t13 from rfl] at hz
    simp only [List.map_cons, List.map_nil, List.sum_cons, List.sum_nil, add_zero] at hz
    simp only [lookupRun, allocBits, Bit.alloc, Bit.and, coordinate_lookup,
      windowIndex, CS.alloc, CS.enforce, CS.init, CS.asgn, Constraint.holds,
      LinearCombination.eval, LinearCombination.zero,
      LinearCombination.addTerm, LinearCombination.addVar,
      LinearCombination.subTerm, LinearCombination.subVar, oneVar, boolToF,
      dfltBit, List.foldr_cons, List.foldr_nil, List.map_cons, List.map_nil,
      List.sum_cons, List.sum_nil, Option.map_some', Option.getD_some,
      List.append_nil, List.nil_append, List.cons_append,
      List.getD_cons_zero, List.getD_cons_succ, reduceIte]
    simp at hz ⊢
    linear_combination hz
  · refine ⟨rfl, _, rfl, ?_⟩
    have hz := synth_zeta_filter [t0, t1, t2, t3, t4, t5, t6, t7, t8, t9, t10, t11, t12, t13, t14, t15] 3 (by norm_num)
    rw [show ((List.range 16).filter (fun j => 3 &&& j == j)) = [0, 1, 2, 3] from rfl,
      show List.getD [t0, t1, t2, t3, t4, t5, t6, t7, t8, t9, t10, t11, t12, t13, t14, t15] 3 0 = t3 from rfl] at hz
    simp only [List.map_cons, List.map_nil, List.sum_cons, List.sum_nil, add_zero] at hz
    simp only [lookupRun, allocBits, Bit.alloc, Bit.and, coordinate_lookup,
      windowIndex, CS.alloc, CS.enforce, CS.init, CS.asgn, Constraint.holds,
      LinearCombination.eval, LinearCombination.zero,
      LinearCombination.addTerm, LinearCombination.addVar,
      LinearCombination.subTerm, LinearCombination.subVar, oneVar, boolToF,
      dfltBit, List.foldr_cons, List.foldr_nil, List.map_cons, List.map_nil,
      List.sum_cons, List.sum_nil, Option.map_some', Option.getD_some,
      List.append_nil, List.nil_append, List.cons_append,
      List.getD_cons_zero, List.getD_cons_succ, reduceIte]
    simp at hz ⊢
    linear_combination hz
  · refine ⟨rfl, _, rfl, ?_⟩
    have hz := synth_zeta_filter [t0, t1, t2, t3, t4, t5, t6, t7, t8, t9, t10, t11, t12, t13, t14, t15] 11 (by norm_num)
    rw [show ((List.range 16).filter (fun j => 11 &&& j == j)) = [0, 1, 2, 3, 8, 9, 10, 11] from rfl,
      show List.getD [t0, t1, t2, t3, t4, t5, t6, t7, t8, t9, t10, t11, t12, t13, t14, t15] 11 0 = t11 from rfl] at hz
    simp only [List.map_cons, List.map_nil, List.sum_cons, List.sum_nil, add_zero] at hz
    simp only [lookupRun, allocBits, Bit.alloc, Bit.and, coordinate_lookup,
      windowIndex, CS.alloc, CS.enforce, CS.init, CS.asgn, Constraint.holds,
      LinearCombination.eval, LinearCombination.zero,
      LinearCombination.addTerm, LinearCombination.addVar,
      LinearCombination.subTerm, LinearCombination.subVar, oneVar, boolToF,
      dfltBit, List.foldr_cons, List.foldr_nil, List.map_cons, List.map_nil,
      List.sum_cons, List.sum_nil, Option.map_some', Option.getD_some,
      List.append_nil, List.nil_append, List.cons_append,
      List.getD_cons_zero, List.getD_cons_succ, reduceIte]
    simp at hz ⊢
    linear_combination hz
  · refine ⟨rfl, _, rfl, ?_⟩
    have hz := synth_zeta_filter [t0, t1, t2, t3, t4, t5, t6, t7, t8, t9, t10, t11, t12, t13, t14, t15] 7 (by norm_num)
    rw [show ((List.range 16).filter (fun j => 7 &&& j == j)) = [0, 1, 2, 3, 4, 5, 6, 7] from rfl,
      show List.getD [t0, t1, t2, t3, t4, t5, t6, t7, t8, t9, t10, t11, t12, t13, t14, t15] 7 0 = t7 from rfl] at hz
    simp only [List.map_cons, List.map_nil, List.sum_cons, List.sum_nil, add_zero] at hz
    simp only [lookupRun, allocBits, Bit.alloc, Bit.and, coordinate_lookup,
      windowIndex, CS.alloc, CS.enforce, CS.init, CS.asgn, Constraint.holds,
      LinearCombination.eval, LinearCombination.zero,
      LinearCombination.addTerm, LinearCombination.addVar,
      LinearCombination.subTerm, LinearCombination.subVar, oneVar, boolToF,
      dfltBit, List.foldr_cons, List.foldr_nil, List.map_cons, List.map_nil,
      List.sum_cons, List.sum_nil, Option.map_some', Option.getD_some,
      List.append_nil, List.nil_append, List.cons_append,
      List.getD_cons_zero, List.getD_cons_succ, reduceIte]
    simp at hz ⊢
    linear_combination hz
  · refine ⟨rfl, _, rfl, ?_⟩
    have hz := synth_zeta_filter [t0, t1, t2, t3, t4, t5, t6, t7, t8, t9, t10, t11, t12, t13, t14, t15] 15 (by norm_num)
    rw [show ((List.range 16).filter (fun j => 15 &&& j == j)) = [0, 1, 2, 3, 4, 5, 6, 7, 8, 9, 10, 11, 12, 13, 14, 15] from rfl,
      show List.getD [t0, t1, t2, t3, t4, t5, t6, t7, t8, t9, t10, t11, t12, t13, t14, t15] 15 0 = t15 from rfl] at hz
    simp only [List.map_cons, List.map_nil, List.sum_cons, List.sum_nil, add_zero] at hz
    simp only [lookupRun, allocBits, Bit.alloc, Bit.and, coordinate_lookup,
      windowIndex, CS.alloc, CS.enforce, CS.init, CS.asgn, Constraint.holds,
      LinearCombination.eval, LinearCombination.zero,
      LinearCombination.addTerm, LinearCombination.addVar,
      LinearCombination.subTerm, LinearCombination.subVar, oneVar, boolToF,
      dfltBit, List.foldr_cons, List.foldr_nil, List.map_cons, List.map_nil,
      List.sum_cons, List.sum_nil, Option.map_some', Option.getD_some,
      List.append_nil, List.nil_append, List.cons_append,
      List.getD_cons_zero, List.getD_cons_succ, reduceIte]
    simp at hz ⊢
    linear_combination hz

/-! ## Range-check / unpack correctness (C6) -/

/-- A run of `unpack` on a freshly allocated `Num` with known value `v`. -/
def unpackRun (v : F) : List Bit × CS :=
  let a := CS.init.alloc (some v)
  Num.unpack ⟨some v, a.1⟩ a.2

def dfltCons : Constraint :=
  (LinearCombination.zero, LinearCombination.zero, LinearCombination.zero)

/-- `s'` extends `s`: at least as many variables, old assignments intact,
and the old constraint list is a prefix of the new one. -/
def CS.extendsTo (s s' : CS) : Prop :=
  s.next ≤ s'.next ∧ (∀ w, w < s.next → s'.assign w = s.assign w) ∧
  ∃ tl, s'.constraints = s.constraints ++ tl

theorem extendsTo_refl (s : CS) : s.extendsTo s :=
  ⟨le_refl _, fun _ _ => rfl, [], by simp⟩

theorem extendsTo_trans {s1 s2 s3 : CS} (h12 : s1.extendsTo s2)
    (h23 : s2.extendsTo s3) : s1.extendsTo s3 := by
  obtain ⟨hn1, ha1, t1, hc1⟩ := h12
  obtain ⟨hn2, ha2, t2, hc2⟩ := h23
  exact ⟨le_trans hn1 hn2,
    fun w hw => (ha2 w (lt_of_lt_of_le hw hn1)).trans (ha1 w hw),
    t1 ++ t2, by rw [hc2, hc1, List.append_assoc]⟩

theorem alloc_extendsTo (s : CS) (val : Option F) :
    s.extendsTo (s.alloc val).2 := by
  refine ⟨Nat.le_succ _, fun w hw => ?_, [], by simp [CS.alloc]⟩
  simp [CS.alloc, Nat.ne_of_lt hw]

theorem enforce_extendsTo (s : CS) (a b c : LinearCombination) :
    s.extendsTo (s.enforce a b c) :=
  ⟨le_refl _, fun _ _ => rfl, [(a, b, c)], rfl⟩

theorem bitAlloc_extendsTo (s : CS) (val : Option Bool) :
    s.extendsTo (Bit.alloc s val).2 :=
  extendsTo_trans (alloc_extendsTo s _) (enforce_extendsTo _ _ _ _)

theorem xorAlloc_extendsTo (av : Variable) (aval : Option Bool) (bv : Variable)
    (bval : Option Bool) (s : CS) :
    s.extendsTo (FunBit.xorAlloc av aval bv bval s).2 :=
  extendsTo_trans (alloc_extendsTo s _) (enforce_extendsTo _ _ _ _)

theorem funBit_xor_extendsTo (a b : FunBit) (s : CS) :
    s.extendsTo (FunBit.xor a b s).2 := by
  rcases a with xa | ⟨av, aval⟩ | ⟨av, aval⟩ <;>
    rcases b with xb | ⟨bv, bval⟩ | ⟨bv, bval⟩ <;>
    first
      | exact xorAlloc_extendsTo _ _ _ _ s
      | (cases xa <;> cases xb <;> exact extendsTo_refl s)
      | (cases xa <;> exact extendsTo_refl s)
      | (cases xb <;> exact extendsTo_refl s)
      | exact extendsTo_refl s

theorem funBit_and_extendsTo (a b : FunBit) (s : CS) :
    s.extendsTo (FunBit.and a b s).2 := by
  rcases a with xa | ⟨av, aval⟩ | ⟨av, aval⟩ <;>
    rcases b with xb | ⟨bv, bval⟩ | ⟨bv, bval⟩ <;>
    first
      | exact extendsTo_trans (alloc_extendsTo s _) (enforce_extendsTo _ _ _ _)
      | (cases xa <;> cases xb <;> exact extendsTo_refl s)
      | (cases xa <;> exact extendsTo_refl s)
      | (cases xb <;> exact extendsTo_refl s)
      | exact extendsTo_refl s

theorem funBit_or_extendsTo (a b : FunBit) (s : CS) :
    s.extendsTo (FunBit.or a b s).2 :=
  funBit_and_extendsTo a.not b.not s

theorem assert_is_false_extendsTo (b : FunBit) (s : CS) :
    s.extendsTo (FunBit.assert_is_false b s) := by
  cases b with
  | Constant x => exact extendsTo_refl s
  | Is av aval => exact enforce_extendsTo _ _ _ _
  | Not av aval => exact enforce_extendsTo _ _ _ _

theorem subChain_extendsTo :
    ∀ (l : List (Bool × Bit)) (c : FunBit) (s : CS),
      s.extendsTo (subChain l c s).2 := by
  intro l
  induction l with
  | nil => intro c s; exact extendsTo_refl s
  | cons p rest ih =>
    intro c s
    obtain ⟨a, b⟩ := p
    exact extendsTo_trans
      (extendsTo_trans (funBit_xor_extendsTo _ _ s)
        (extendsTo_trans (funBit_and_extendsTo _ _ _)
          (extendsTo_trans (funBit_and_extendsTo _ _ _) (funBit_or_extendsTo _ _ _))))
      (ih _ _)

theorem assert_less_than_r_extendsTo (bits : List Bit) (s : CS) :
    s.extendsTo (assert_less_than_r bits s) :=
  extendsTo_trans (subChain_extendsTo _ _ s) (assert_is_false_extendsTo _ _)

theorem allocBits_extendsTo : ∀ (vs : List (Option Bool)) (s : CS),
    s.extendsTo (allocBits vs s).2 := by
  intro vs
  induction vs with
  | nil => intro s; exact extendsTo_refl s
  | cons v rest ih =>
    intro s
    exact extendsTo_trans (bitAlloc_extendsTo s v) (ih _)

theorem allocBits_length : ∀ (vs : List (Option Bool)) (s : CS),
    (allocBits vs s).1.length = vs.length := by
  intro vs
  induction vs with
  | nil => intro s; rfl
  | cons v rest ih => intro s; simp [allocBits, ih]

theorem bitAlloc_next (s : CS) (v : Option Bool) :
    (Bit.alloc s v).2.next = s.next + 1 := rfl

theorem bitAlloc_constraints_length (s : CS) (v : Option Bool) :
    (Bit.alloc s v).2.constraints.length = s.constraints.length + 1 := by
  simp [Bit.alloc, CS.alloc, CS.enforce]

theorem allocBits_next : ∀ (vs : List (Option Bool)) (s : CS),
    (allocBits vs s).2.next = s.next + vs.length := by
  intro vs
  induction vs with
  | nil => intro s; simp [allocBits]
  | cons v rest ih =>
    intro s
    show (allocBits rest (Bit.alloc s v).2).2.next = _
    rw [ih, bitAlloc_next]
    simp
    omega

theorem allocBits_constraints_length : ∀ (vs : List (Option Bool)) (s : CS),
    (allocBits vs s).2.constraints.length = s.constraints.length + vs.length := by
  intro vs
  induction vs with
  | nil => intro s; simp [allocBits]
  | cons v rest ih =>
    intro s
    show (allocBits rest (Bit.alloc s v).2).2.constraints.length = _
    rw [ih, bitAlloc_constraints_length]
    simp
    omega

theorem allocBits_spec : ∀ (vs : List (Option Bool)) (s : CS) (i : Nat),
    i < vs.length →
    ((allocBits vs s).1.getD i dfltBit).var = s.next + i ∧
    ((allocBits vs s).1.getD i dfltBit).val = vs.getD i none ∧
    (allocBits vs s).2.assign (s.next + i) = (vs.getD i none).map boolToF := by
  intro vs
  induction vs with
  | nil => intro s i hi; simp at hi
  | cons v rest ih =>
    intro s i hi
    cases i with
    | zero =>
      refine ⟨?_, ?_, ?_⟩
      · show (((Bit.alloc s v).1 :: (allocBits rest (Bit.alloc s v).2).1).getD 0
            dfltBit).var = s.next + 0
        rfl
      · show (((Bit.alloc s v).1 :: (allocBits rest (Bit.alloc s v).2).1).getD 0
            dfltBit).val = (v :: rest).getD 0 none
        rfl
      · show (allocBits rest (Bit.alloc s v).2).2.assign (s.next + 0)
            = ((v :: rest).getD 0 none).map boolToF
        rw [(allocBits_extendsTo rest (Bit.alloc s v).2).2.1 (s.next + 0)
          (by rw [bitAlloc_next]; omega)]
        show (if s.next + 0 = s.next then v.map boolToF else s.assign (s.next + 0)) = _
        simp
    | succ i =>
      have hi' : i < rest.length := by simpa using hi
      obtain ⟨h1, h2, h3⟩ := ih (Bit.alloc s v).2 i hi'
      refine ⟨?_, ?_, ?_⟩
      · show ((allocBits rest (Bit.alloc s v).2).1.getD i dfltBit).var
            = s.next + (i + 1)
        rw [h1, bitAlloc_next]
        ring
      · show ((allocBits rest (Bit.alloc s v).2).1.getD i dfltBit).val
            = (v :: rest).getD (i + 1) none
        rw [h2]
        rfl
      · show (allocBits rest (Bit.alloc s v).2).2.assign (s.next + (i + 1))
            = ((v :: rest).getD (i + 1) none).map boolToF
        have harith : s.next + (i + 1) = (Bit.alloc s v).2.next + i := by
          rw [bitAlloc_next]; omega
        rw [harith, h3]
        rfl

theorem eval_append (l1 l2 : LinearCombination) (asgn : Variable → F) :
    LinearCombination.eval (l1 ++ l2) asgn
      = LinearCombination.eval l1 asgn + LinearCombination.eval l2 asgn := by
  simp [LinearCombination.eval]

theorem packTerms_eval : ∀ (bits : List Bit) (c : F) (asgn : Variable → F),
    LinearCombination.eval (packTerms bits c) asgn
      = ((List.range bits.length).map
          (fun i => c * 2 ^ i * asgn ((bits.getD i dfltBit).var))).sum := by
  intro bits
  induction bits with
  | nil => intro c asgn; simp [packTerms, LinearCombination.eval]
  | cons b rest ih =>
    intro c asgn
    show LinearCombination.eval ((c, b.var) :: packTerms rest (c * 2)) asgn = _
    have hcons : LinearCombination.eval ((c, b.var) :: packTerms rest (c * 2)) asgn
        = c * asgn b.var + LinearCombination.eval (packTerms rest (c * 2)) asgn := by
      simp [LinearCombination.eval]
    rw [hcons, ih (c * 2) asgn, List.length_cons, List.range_succ_eq_map,
      List.map_cons, List.map_map, List.sum_cons]
    have hpt : ∀ i ∈ List.range rest.length,
        ((fun i => c * 2 ^ i * asgn (((b :: rest).getD i dfltBit).var)) ∘ Nat.succ) i
          = (fun i => c * 2 * 2 ^ i * asgn ((rest.getD i dfltBit).var)) i := by
      intro i _
      simp only [Function.comp, List.getD_cons_succ, Nat.succ_eq_add_one, pow_succ]
      ring
    rw [List.map_congr_left hpt]
    simp only [List.getD_cons_zero, pow_zero, mul_one]

theorem le_bits_eq (v : F) :
    (reprBitsBE v).reverse.take 255
      = (List.range 255).map (fun i => v.val.testBit i) := by
  apply List.ext_getElem
  · simp [reprBitsBE]
  · intro i h1 h2
    simp only [reprBitsBE, List.getElem_take, List.getElem_reverse,
      List.length_reverse, List.length_map, List.length_range,
      List.getElem_map, List.getElem_range]
    congr 1
    simp only [List.length_take, List.length_reverse, List.length_map,
      List.length_range] at h1
    omega

theorem testBit_sum_mod : ∀ (k n : Nat),
    ((List.range k).map (fun i => if n.testBit i then 2 ^ i else 0)).sum
      = n % 2 ^ k := by
  intro k n
  induction k with
  | zero => simp [Nat.mod_one]
  | succ k ih =>
    rw [List.range_succ, List.map_append, List.sum_append]
    simp only [List.map_cons, List.map_nil, List.sum_cons, List.sum_nil, add_zero]
    rw [ih, pow_succ, Nat.mod_mul]
    have ht : n.testBit k = decide (n / 2 ^ k % 2 = 1) := Nat.testBit_to_div_mod
    have h2 : n / 2 ^ k % 2 = 0 ∨ n / 2 ^ k % 2 = 1 := by omega
    rcases h2 with h2 | h2 <;> simp [ht, h2]

theorem bit_sum_cast (k n : Nat) :
    ((List.range k).map (fun i => (2 : F) ^ i * boolToF (n.testBit i))).sum
      = ((((List.range k).map (fun i => if n.testBit i then 2 ^ i else 0)).sum : ℕ) : F) := by
  rw [Nat.cast_list_sum, List.map_map]
  refine congrArg List.sum (List.map_congr_left ?_)
  intro i _
  by_cases h : n.testBit i <;> simp [h, boolToF]

theorem bit_sum_val (v : F) :
    ((List.range 255).map (fun i => (2 : F) ^ i * boolToF (v.val.testBit i))).sum
      = v := by
  rw [bit_sum_cast, testBit_sum_mod]
  rw [Nat.mod_eq_of_lt (lt_trans (ZMod.val_lt v) r_num_bits.2)]
  exact ZMod.natCast_rightInverse v

theorem assignment_into_bits_len (num : Option F) (s : CS) :
    (assignment_into_bits num s).2.constraints.length
      = s.constraints.length + 255 := by
  cases num with
  | some v =>
    show (allocBits (((reprBitsBE v).reverse.take 255).map some) s).2.constraints.length = _
    rw [allocBits_constraints_length]
    simp [reprBitsBE]
  | none =>
    show (allocBits (List.replicate 255 none) s).2.constraints.length = _
    rw [allocBits_constraints_length]
    simp

theorem unpack_constraint (num : Num) (s : CS) :
    (num.unpack s).2.constraints.getD (s.constraints.length + 255) dfltCons
      = (LinearCombination.zero, LinearCombination.zero,
         LinearCombination.subVar (packTerms (num.unpack s).1 1) num.var) := by
  obtain ⟨tl, htl⟩ := (assert_less_than_r_extendsTo (assignment_into_bits num.value s).1
      ((assignment_into_bits num.value s).2.enforce LinearCombination.zero
        LinearCombination.zero
        (LinearCombination.subVar
          (packTerms (assignment_into_bits num.value s).1 1) num.var))).2.2
  have hlen := assignment_into_bits_len num.value s
  show ((assert_less_than_r (assignment_into_bits num.value s).1
      ((assignment_into_bits num.value s).2.enforce LinearCombination.zero
        LinearCombination.zero
        (LinearCombination.subVar
          (packTerms (assignment_into_bits num.value s).1 1) num.var))).constraints).getD
      (s.constraints.length + 255) dfltCons = _
  rw [htl]
  show (((assignment_into_bits num.value s).2.constraints
      ++ [(LinearCombination.zero, LinearCombination.zero,
          LinearCombination.subVar
            (packTerms (assignment_into_bits num.value s).1 1) num.var)]
      ++ tl)).getD (s.constraints.length + 255) dfltCons = _
  rw [List.getD_eq_getElem?_getD, List.getElem?_append,
    if_pos (by simp only [List.length_append, List.length_cons, List.length_nil, hlen]; omega),
    List.getElem?_append, if_neg (by rw [hlen]; omega)]
  rw [hlen]
  simp
  rfl

set_option maxHeartbeats 1000000 in
/-- C6: unpack on a known value v returns 255 bits LSB first whose values are
the binary digits of v, the weighted power-of-two sum of those digits is v,
and the emitted linear constraint is satisfied. -/
theorem C6_unpack_correct (v : F) :
    (unpackRun v).1.length = 255 ∧
    (∀ i, i < 255 →
      ((unpackRun v).1.getD i dfltBit).val = some (v.val.testBit i)) ∧
    ((List.range 255).map (fun i => (2 : F) ^ i * boolToF (v.val.testBit i))).sum
      = v ∧
    (unpackRun v).2.constraints.getD 255 dfltCons
      = (LinearCombination.zero, LinearCombination.zero,
         LinearCombination.subVar (packTerms ((unpackRun v).1) 1) 1) ∧
    Constraint.holds ((unpackRun v).2.constraints.getD 255 dfltCons)
      (unpackRun v).2.asgn := by
  have hvs : ((reprBitsBE v).reverse.take 255).map some
      = (List.range 255).map (fun i => some (v.val.testBit i)) := by
    rw [le_bits_eq, List.map_map]
    rfl
  have hvslen : (((reprBitsBE v).reverse.take 255).map some).length = 255 := by
    rw [hvs]; simp
  have h4 : (unpackRun v).2.constraints.getD 255 dfltCons
      = (LinearCombination.zero, LinearCombination.zero,
         LinearCombination.subVar (packTerms ((unpackRun v).1) 1) 1) :=
    unpack_constraint ⟨some v, 1⟩ (CS.init.alloc (some v)).2
  have hlen1 : (unpackRun v).1.length = 255 := by
    show (allocBits (((reprBitsBE v).reverse.take 255).map some)
        ((CS.init.alloc (some v)).2)).1.length = 255
    rw [allocBits_length, hvslen]
  have hrun : unpackRun v
      = ((allocBits (((reprBitsBE v).reverse.take 255).map some) ((CS.init.alloc (some v)).2)).1,
         assert_less_than_r (allocBits (((reprBitsBE v).reverse.take 255).map some) ((CS.init.alloc (some v)).2)).1
           ((allocBits (((reprBitsBE v).reverse.take 255).map some) ((CS.init.alloc (some v)).2)).2.enforce LinearCombination.zero LinearCombination.zero
             (LinearCombination.subVar (packTerms (allocBits (((reprBitsBE v).reverse.take 255).map some) ((CS.init.alloc (some v)).2)).1 1) 1))) := rfl
  have hext2 : CS.extendsTo
      (allocBits (((reprBitsBE v).reverse.take 255).map some) ((CS.init.alloc (some v)).2)).2 (unpackRun v).2 := by
    rw [hrun]
    dsimp only
    exact extendsTo_trans
      (enforce_extendsTo (allocBits (((reprBitsBE v).reverse.take 255).map some) ((CS.init.alloc (some v)).2)).2 LinearCombination.zero LinearCombination.zero
        (LinearCombination.subVar (packTerms (allocBits (((reprBitsBE v).reverse.take 255).map some) ((CS.init.alloc (some v)).2)).1 1) 1))
      (assert_less_than_r_extendsTo (allocBits (((reprBitsBE v).reverse.take 255).map some) ((CS.init.alloc (some v)).2)).1
        ((allocBits (((reprBitsBE v).reverse.take 255).map some) ((CS.init.alloc (some v)).2)).2.enforce LinearCombination.zero LinearCombination.zero
          (LinearCombination.subVar (packTerms (allocBits (((reprBitsBE v).reverse.take 255).map some) ((CS.init.alloc (some v)).2)).1 1) 1)))
  have hext : CS.extendsTo ((CS.init.alloc (some v)).2) (unpackRun v).2 :=
    extendsTo_trans (allocBits_extendsTo _ _) hext2
  refine ⟨hlen1, ?_, bit_sum_val v, h4, ?_⟩
  · intro i hi
    have hv : i < (((reprBitsBE v).reverse.take 255).map some).length := by
      rw [hvslen]; omega
    show ((allocBits (((reprBitsBE v).reverse.take 255).map some)
        ((CS.init.alloc (some v)).2)).1.getD i dfltBit).val = _
    rw [(allocBits_spec _ _ i hv).2.1, hvs]
    simp [List.getD_eq_getElem?_getD, List.getElem?_map, List.getElem?_range, hi]
  · rw [h4]
    have h1v : (unpackRun v).2.assign 1 = some v := by
      rw [hext.2.1 1 (by
        show 1 < (CS.init.alloc (some v)).2.next
        rw [show (CS.init.alloc (some v)).2.next = 2 from rfl]
        omega)]
      rfl
    have hasgn1 : (unpackRun v).2.asgn 1 = v := by
      rw [CS.asgn, h1v]
      rfl
    show LinearCombination.eval LinearCombination.zero (unpackRun v).2.asgn
        * LinearCombination.eval LinearCombination.zero (unpackRun v).2.asgn
      = LinearCombination.eval
          (LinearCombination.subVar (packTerms ((unpackRun v).1) 1) 1)
          (unpackRun v).2.asgn
    have hz : LinearCombination.eval LinearCombination.zero (unpackRun v).2.asgn
        = 0 := rfl
    have hsub : LinearCombination.eval
        (LinearCombination.subVar (packTerms ((unpackRun v).1) 1) 1)
        (unpackRun v).2.asgn
      = LinearCombination.eval (packTerms ((unpackRun v).1) 1) (unpackRun v).2.asgn
        + (-1) * (unpackRun v).2.asgn 1 := by
      show LinearCombination.eval
          (packTerms ((unpackRun v).1) 1 ++ [((-1 : F), 1)]) _ = _
      rw [eval_append]
      simp [LinearCombination.eval]
    rw [hz, hsub, packTerms_eval, hlen1, hasgn1]
    have hbit : ∀ i ∈ List.range 255,
        (1 : F) * 2 ^ i * (unpackRun v).2.asgn (((unpackRun v).1.getD i dfltBit).var)
          = (2 : F) ^ i * boolToF (v.val.testBit i) := by
      intro i hmem
      rw [List.mem_range] at hmem
      have hv : i < (((reprBitsBE v).reverse.take 255).map some).length := by
        rw [hvslen]; omega
      have hvar : ((unpackRun v).1.getD i dfltBit).var
          = (CS.init.alloc (some v)).2.next + i := by
        show ((allocBits (((reprBitsBE v).reverse.take 255).map some)
            ((CS.init.alloc (some v)).2)).1.getD i dfltBit).var = _
        rw [(allocBits_spec _ _ i hv).1]
      have hnext : ((CS.init.alloc (some v)).2.next : Nat) = 2 := rfl
      have hlt : (CS.init.alloc (some v)).2.next + i
          < (allocBits (((reprBitsBE v).reverse.take 255).map some)
              ((CS.init.alloc (some v)).2)).2.next := by
        rw [allocBits_next, hvslen]
        omega
      have hbassign : (unpackRun v).2.assign ((CS.init.alloc (some v)).2.next + i)
          = some (boolToF (v.val.testBit i)) := by
        rw [hext2.2.1 _ hlt, (allocBits_spec _ _ i hv).2.2, hvs]
        simp [List.getD_eq_getElem?_getD, List.getElem?_map, List.getElem?_range, hmem]
      rw [hvar, CS.asgn, hbassign]
      simp
    rw [List.map_congr_left hbit, bit_sum_val v]
    ring

/-! ## Constraint counting of the pedersen accumulation loop (C2) -/

theorem numMul_next (a b : Num) (s : CS) : (a.mul b s).2.next = s.next + 1 := rfl

theorem enforce_next (s : CS) (a b c : LinearCombination) :
    (s.enforce a b c).next = s.next := rfl

theorem alloc_next (s : CS) (v : Option F) : (s.alloc v).2.next = s.next + 1 := rfl

theorem numMul_constraints_length (a b : Num) (s : CS) :
    (a.mul b s).2.constraints.length = s.constraints.length + 1 := by
  simp [Num.mul, CS.alloc, CS.enforce]

theorem enforce_constraints_length (s : CS) (a b c : LinearCombination) :
    (s.enforce a b c).constraints.length = s.constraints.length + 1 := by
  simp [CS.enforce]

theorem alloc_constraints (s : CS) (v : Option F) :
    (s.alloc v).2.constraints = s.constraints := rfl

/-- Each pass of the accumulation loop whose index avoids `glen - 1`
allocates 7 variables (5 products, `x3`, `y3`). -/
theorem pedersenAcc_next (j : JubJub) (glen : Nat) :
    ∀ (lst : List (Num × Num)) (i : Nat) (cx cy : Num) (s : CS),
      (∀ k, k < lst.length → i + k ≠ glen - 1) →
      (pedersenAcc j glen i lst cx cy s).2.next = s.next + 7 * lst.length := by
  intro lst
  induction lst with
  | nil => intro i cx cy s h; simp [pedersenAcc]
  | cons nxt rest ih =>
    intro i cx cy s h
    have hguard : i ≠ glen - 1 := by
      have := h 0 (by simp)
      simpa using this
    have h' : ∀ k, k < rest.length → (i + 1) + k ≠ glen - 1 := by
      intro k hk
      have := h (k + 1) (by simp; omega)
      omega
    simp only [pedersenAcc]
    rw [if_pos hguard]
    rw [ih (i + 1) _ _ _ h']
    simp only [numMul_next, enforce_next, alloc_next, List.length_cons]
    ring

/-- Each pass of the accumulation loop whose index avoids `glen - 1`
emits 7 constraints (5 products, `x3`, `y3`). -/
theorem pedersenAcc_constraints_length (j : JubJub) (glen : Nat) :
    ∀ (lst : List (Num × Num)) (i : Nat) (cx cy : Num) (s : CS),
      (∀ k, k < lst.length → i + k ≠ glen - 1) →
      (pedersenAcc j glen i lst cx cy s).2.constraints.length
        = s.constraints.length + 7 * lst.length := by
  intro lst
  induction lst with
  | nil => intro i cx cy s h; simp [pedersenAcc]
  | cons nxt rest ih =>
    intro i cx cy s h
    have hguard : i ≠ glen - 1 := by
      have := h 0 (by simp)
      simpa using this
    have h' : ∀ k, k < rest.length → (i + 1) + k ≠ glen - 1 := by
      intro k hk
      have := h (k + 1) (by simp; omega)
      omega
    simp only [pedersenAcc]
    rw [if_pos hguard]
    rw [ih (i + 1) _ _ _ h']
    simp only [numMul_constraints_length, enforce_constraints_length,
      alloc_constraints, List.length_cons]
    ring

set_option maxHeartbeats 1000000 in
/-- C2: the guard on the x3 leg never fires. -/
theorem C2_pedersen_final_x3_emitted (j : JubJub) (lookups : List (Num × Num))
    (hlen : lookups.length = 127) (cx cy : Num) (s : CS) :
    (pedersenAcc j 128 0 lookups cx cy s).2.next = s.next + 889 ∧
    (pedersenAcc j 128 0 lookups cx cy s).2.constraints.length
      = s.constraints.length + 889 ∧
    (pedersenAcc JubJub.new 128 126 [(dfltNum, dfltNum)] dfltNum dfltNum
        CS.init).2.constraints
      = [([((1 : F), 0)], [((1 : F), 0)], [((1 : F), 1)]),
         ([((1 : F), 0)], [((1 : F), 0)], [((1 : F), 2)]),
         ([((1 : F), 0)], [((1 : F), 0)], [((1 : F), 3)]),
         ([((1 : F), 0)], [((1 : F), 0)], [((1 : F), 4)]),
         ([((1 : F), 3)], [((1 : F), 4)], [((1 : F), 5)]),
         ([((1 : F), 0), (JubJub.new.d, 5)], [((1 : F), 6)],
          [((1 : F), 1), ((1 : F), 2)]),
         ([((1 : F), 0), (-JubJub.new.d, 5)], [((1 : F), 7)],
          [((1 : F), 4), ((1 : F), 3)])] := by
  have h : ∀ k, k < lookups.length → 0 + k ≠ 128 - 1 := by
    intro k hk
    rw [hlen] at hk
    omega
  refine ⟨?_, ?_, ?_⟩
  · rw [pedersenAcc_next j 128 lookups 0 cx cy s h, hlen]
  · rw [pedersenAcc_constraints_length j 128 lookups 0 cx cy s h, hlen]
  · rfl

/-- Witness for C2 at a concrete 127-lookup run. -/
theorem C2_pedersen_final_x3_emitted_witness :
    (List.replicate 127 ((dfltNum, dfltNum) : Num × Num)).length = 127 ∧
    (pedersenAcc JubJub.new 128 0 (List.replicate 127 (dfltNum, dfltNum))
        dfltNum dfltNum CS.init).2.next = CS.init.next + 889 :=
  ⟨by simp,
   (C2_pedersen_final_x3_emitted JubJub.new
     (List.replicate 127 (dfltNum, dfltNum)) (by simp) dfltNum dfltNum CS.init).1⟩

/-! ## C4: the native accumulation (refinement model from the claim) -/

/-- The point a 4-bit window (b0 least significant) selects from a table
pair, per the claim: index `b0 + 2*b1 + 4*b2 + 8*b3`. -/
def selectedPoint (bs : List Bool) (tb : List F × List F) : Point :=
  let idx := (bs.getD 0 false).toNat + 2 * (bs.getD 1 false).toNat
    + 4 * (bs.getD 2 false).toNat + 8 * (bs.getD 3 false).toNat
  ⟨tb.1.getD idx 0, tb.2.getD idx 0⟩

/-- The claim's native accumulation: start from the identity and
`add_assign` the 128 selected points in window order. -/
def nativePedersen (j : JubJub) (bvs : List Bool)
    (generators : List (List F × List F)) : Option Point :=
  ((chunks4 bvs).zip generators).foldl
    (fun acc pr => acc.bind (fun a => a.add_assign (selectedPoint pr.1 pr.2) j))
    (some Point.zero)

theorem zero_add_assign (q : Point) (j : JubJub) :
    Point.zero.add_assign q j = some q := by
  obtain ⟨qx, qy⟩ := q
  rw [Point.add_assign_eq]
  have h : ¬(1 + j.d * Point.zero.x * (Point.mk qx qy).x * Point.zero.y
        * (Point.mk qx qy).y = 0 ∨
      1 - j.d * Point.zero.x * (Point.mk qx qy).x * Point.zero.y
        * (Point.mk qx qy).y = 0) := by
    simp [Point.zero]
  rw [if_neg h]
  simp [Point.zero]

theorem foldl_bind_none (j : JubJub) (ps : List Point) :
    ps.foldl (fun acc p => acc.bind (fun a => a.add_assign p j))
      (none : Option Point) = none := by
  induction ps with
  | nil => rfl
  | cons p pr ih =>
    simp only [List.foldl_cons, Option.none_bind]
    exact ih

theorem numMul_value (a b : Num) (s : CS) (x y : F)
    (ha : a.value = some x) (hb : b.value = some y) :
    (a.mul b s).1.value = some (x * y) := by
  simp [Num.mul, ha, hb]

theorem windowIndex_known (ch : List Bit) (hlen : ch.length = 4)
    (hk : ∀ b ∈ ch, b.val.isSome) :
    windowIndex ch = some (((ch.getD 0 dfltBit).val.getD false).toNat
      + 2 * ((ch.getD 1 dfltBit).val.getD false).toNat
      + 4 * ((ch.getD 2 dfltBit).val.getD false).toNat
      + 8 * ((ch.getD 3 dfltBit).val.getD false).toNat) := by
  obtain ⟨b0, b1, b2, b3, rfl⟩ :
      ∃ b0 b1 b2 b3, ch = [b0, b1, b2, b3] := by
    match ch, hlen with
    | [b0, b1, b2, b3], _ => exact ⟨b0, b1, b2, b3, rfl⟩
  obtain ⟨v0, h0⟩ := Option.isSome_iff_exists.mp (hk b0 (by simp))
  obtain ⟨v1, h1⟩ := Option.isSome_iff_exists.mp (hk b1 (by simp))
  obtain ⟨v2, h2⟩ := Option.isSome_iff_exists.mp (hk b2 (by simp))
  obtain ⟨v3, h3⟩ := Option.isSome_iff_exists.mp (hk b3 (by simp))
  simp only [windowIndex, List.foldr_cons, List.foldr_nil, h0, h1, h2, h3,
    List.getD_cons_zero, List.getD_cons_succ]
  cases v0 <;> cases v1 <;> cases v2 <;> cases v3 <;> rfl

theorem point_lookup_values (xt yt : List F) (bits : List Bit) (s : CS) :
    ((point_lookup xt yt bits s).1.1.value
       = (windowIndex bits).map (fun idx => xt.getD idx 0)) ∧
    ((point_lookup xt yt bits s).1.2.value
       = (windowIndex bits).map (fun idx => yt.getD idx 0)) := ⟨rfl, rfl⟩

theorem map_val_getD (o : Option Bit) :
    (Option.map (fun b => b.val.getD false) o).getD false
      = (o.getD dfltBit).val.getD false := by
  cases o <;> rfl

theorem chunks4_map {α β : Type} (g : α → β) :
    ∀ l : List α, chunks4 (l.map g) = (chunks4 l).map (List.map g) := by
  intro l
  induction l using chunks4.induct with
  | case1 b0 b1 b2 b3 rest ih => simp [chunks4, ih]
  | case2 => simp [chunks4]
  | case3 l h1 h2 =>
    match l, h1, h2 with
    | [a], _, _ => simp [chunks4]
    | [a, b], _, _ => simp [chunks4]
    | [a, b, c], _, _ => simp [chunks4]
    | [], _, h2 => exact absurd rfl h2
    | b0 :: b1 :: b2 :: b3 :: rest, h1, _ => exact absurd rfl (h1 b0 b1 b2 b3 rest)

theorem chunks4_length {α : Type} :
    ∀ l : List α, (chunks4 l).length = (l.length + 3) / 4 := by
  intro l
  induction l using chunks4.induct with
  | case1 b0 b1 b2 b3 rest ih =>
    simp only [chunks4, List.length_cons, ih]
    omega
  | case2 => simp [chunks4]
  | case3 l h1 h2 =>
    match l, h1, h2 with
    | [a], _, _ => simp [chunks4]
    | [a, b], _, _ => simp [chunks4]
    | [a, b, c], _, _ => simp [chunks4]
    | [], _, h2 => exact absurd rfl h2
    | b0 :: b1 :: b2 :: b3 :: rest, h1, _ => exact absurd rfl (h1 b0 b1 b2 b3 rest)

theorem chunks4_length_all {α : Type} :
    ∀ l : List α, l.length % 4 = 0 → ∀ ch ∈ chunks4 l, ch.length = 4 := by
  intro l
  induction l using chunks4.induct with
  | case1 b0 b1 b2 b3 rest ih =>
    intro h4 ch hch
    simp only [chunks4, List.mem_cons] at hch
    rcases hch with h | h
    · subst h; rfl
    · refine ih ?_ ch h
      simp only [List.length_cons] at h4
      omega
  | case2 => intro _ ch hch; simp [chunks4] at hch
  | case3 l h1 h2 =>
    match l, h1, h2 with
    | [a], _, _ => intro h4 _ _; simp at h4
    | [a, b], _, _ => intro h4 _ _; simp at h4
    | [a, b, c], _, _ => intro h4 _ _; simp at h4
    | [], _, h2 => exact absurd rfl h2
    | b0 :: b1 :: b2 :: b3 :: rest, h1, _ => exact absurd rfl (h1 b0 b1 b2 b3 rest)

theorem chunks4_mem_mem {α : Type} :
    ∀ l : List α, ∀ ch ∈ chunks4 l, ∀ b ∈ ch, b ∈ l := by
  intro l
  induction l using chunks4.induct with
  | case1 b0 b1 b2 b3 rest ih =>
    intro ch hch b hb
    simp only [chunks4, List.mem_cons] at hch
    rcases hch with h | h
    · subst h
      simp only [List.mem_cons] at hb ⊢
      rcases hb with h | h | h | h | h
      · exact Or.inl h
      · exact Or.inr (Or.inl h)
      · exact Or.inr (Or.inr (Or.inl h))
      · exact Or.inr (Or.inr (Or.inr (Or.inl h)))
      · simp at h
    · have := ih ch h b hb
      simp [this]
  | case2 => intro ch hch; simp [chunks4] at hch
  | case3 l h1 h2 =>
    match l, h1, h2 with
    | [a], _, _ =>
      intro ch hch b hb
      simp only [chunks4, List.mem_cons] at hch
      rcases hch with h | h
      · subst h; exact hb
      · simp at h
    | [a, b0], _, _ =>
      intro ch hch b hb
      simp only [chunks4, List.mem_cons] at hch
      rcases hch with h | h
      · subst h; exact hb
      · simp at h
    | [a, b0, c], _, _ =>
      intro ch hch b hb
      simp only [chunks4, List.mem_cons] at hch
      rcases hch with h | h
      · subst h; exact hb
      · simp at h
    | [], _, h2 => exact absurd rfl h2
    | b0 :: b1 :: b2 :: b3 :: rest, h1, _ => exact absurd rfl (h1 b0 b1 b2 b3 rest)

theorem lookupsLoop_vals :
    ∀ (chunks : List (List Bit)) (gens : List (List F × List F)) (s : CS),
      (∀ ch ∈ chunks, ch.length = 4) →
      (∀ ch ∈ chunks, ∀ b ∈ ch, b.val.isSome) →
      (lookupsLoop chunks gens s).1.map (fun nm => (nm.1.value, nm.2.value))
        = (chunks.zip gens).map (fun pr =>
            (some (selectedPoint (pr.1.map (fun b => b.val.getD false)) pr.2).x,
             some (selectedPoint (pr.1.map (fun b => b.val.getD false)) pr.2).y)) := by
  intro chunks
  induction chunks with
  | nil => intro gens s _ _; rfl
  | cons ch rest ih =>
    intro gens s hlen hk
    cases gens with
    | nil => rfl
    | cons tb gt =>
      have h4 : ch.length = 4 := hlen ch (by simp)
      have hkch : ∀ b ∈ ch, b.val.isSome := hk ch (by simp)
      have hidx := windowIndex_known ch h4 hkch
      show ((point_lookup tb.1 tb.2 ch s).1
          :: (lookupsLoop rest gt (point_lookup tb.1 tb.2 ch s).2).1).map
          (fun nm => (nm.1.value, nm.2.value)) = _
      rw [List.map_cons, List.zip_cons_cons, List.map_cons]
      refine List.cons_eq_cons.mpr ⟨?_, ?_⟩
      · rw [show ((point_lookup tb.1 tb.2 ch s).1.1.value,
            (point_lookup tb.1 tb.2 ch s).1.2.value)
            = ((windowIndex ch).map (fun idx => tb.1.getD idx 0),
               (windowIndex ch).map (fun idx => tb.2.getD idx 0)) from rfl]
        rw [hidx]
        simp [selectedPoint, map_val_getD]
      · exact ih gt _ (fun c hc => hlen c (by simp [hc]))
          (fun c hc => hk c (by simp [hc]))

theorem pedersenAcc_value (j : JubJub) (glen : Nat) :
    ∀ (lst : List (Num × Num)) (ps : List Point) (i : Nat) (cx cy : Num)
      (P q : Point) (s : CS),
      lst.map (fun nm => (nm.1.value, nm.2.value))
        = ps.map (fun p => (some p.x, some p.y)) →
      cx.value = some P.x → cy.value = some P.y →
      ps.foldl (fun acc p => acc.bind (fun a => a.add_assign p j)) (some P)
        = some q →
      (∀ k, k < lst.length → i + k ≠ glen - 1) →
      (pedersenAcc j glen i lst cx cy s).1.value = some q.y := by
  intro lst
  induction lst with
  | nil =>
    intro ps i cx cy P q s hmap hx hy hfold hg
    have hps : ps = [] := by
      cases ps with
      | nil => rfl
      | cons p pr => simp at hmap
    subst hps
    simp only [List.foldl_nil, Option.some.injEq] at hfold
    subst hfold
    exact hy
  | cons nm rest ih =>
    intro ps i cx cy P q s hmap hx hy hfold hg
    cases ps with
    | nil => simp at hmap
    | cons p pr =>
      simp only [List.map_cons, List.cons_eq_cons, Prod.mk.injEq] at hmap
      obtain ⟨⟨hv1, hv2⟩, hmap'⟩ := hmap
      have hstep : ∃ P', P.add_assign p j = some P' ∧
          pr.foldl (fun acc p => acc.bind (fun a => a.add_assign p j)) (some P')
            = some q := by
        rw [List.foldl_cons, Option.some_bind] at hfold
        cases hPP : P.add_assign p j with
        | none =>
          rw [hPP, foldl_bind_none] at hfold
          exact absurd hfold (by simp)
        | some P' =>
          rw [hPP] at hfold
          exact ⟨P', rfl, hfold⟩
      obtain ⟨P', hPP, hfold'⟩ := hstep
      rw [Point.add_assign_eq] at hPP
      by_cases hsing : 1 + j.d * P.x * p.x * P.y * p.y = 0 ∨
          1 - j.d * P.x * p.x * P.y * p.y = 0
      · rw [if_pos hsing] at hPP
        exact absurd hPP (by simp)
      · rw [if_neg hsing] at hPP
        push_neg at hsing
        obtain ⟨hd1, hd2⟩ := hsing
        have hP' : P' = Point.mk
            ((P.x * p.y + P.y * p.x) / (1 + j.d * P.x * p.x * P.y * p.y))
            ((P.y * p.y + P.x * p.x) / (1 - j.d * P.x * p.x * P.y * p.y)) :=
          (Option.some.inj hPP).symm
        have hguard : i ≠ glen - 1 := by
          have := hg 0 (by simp)
          simpa using this
        have hg' : ∀ k, k < rest.length → (i + 1) + k ≠ glen - 1 := by
          intro k hk
          have := hg (k + 1) (by simp; omega)
          omega
        -- the five products
        have hm1 : ((cx.mul nm.2 s).1).value = some (P.x * p.y) :=
          numMul_value cx nm.2 s P.x p.y hx hv2
        have hm2 : ((cy.mul nm.1 (cx.mul nm.2 s).2).1).value
            = some (P.y * p.x) := numMul_value _ _ _ _ _ hy hv1
        have hm3 : ((cy.mul nm.2 (cy.mul nm.1 (cx.mul nm.2 s).2).2).1).value
            = some (P.y * p.y) := numMul_value _ _ _ _ _ hy hv2
        have hm4 : ((cx.mul nm.1
            (cy.mul nm.2 (cy.mul nm.1 (cx.mul nm.2 s).2).2).2).1).value
            = some (P.x * p.x) := numMul_value _ _ _ _ _ hx hv1
        have hm5 : (((cy.mul nm.2 (cy.mul nm.1 (cx.mul nm.2 s).2).2).1.mul
            (cx.mul nm.1 (cy.mul nm.2 (cy.mul nm.1 (cx.mul nm.2 s).2).2).2).1
            (cx.mul nm.1 (cy.mul nm.2 (cy.mul nm.1 (cx.mul nm.2 s).2).2).2).2).1).value
            = some (P.y * p.y * (P.x * p.x)) :=
          numMul_value _ _ _ _ _ hm3 hm4
        simp only [pedersenAcc]
        rw [if_pos hguard]
        refine ih pr (i + 1) _ _ P' q _ hmap' ?_ ?_ hfold' hg'
        · show (Num.mk _ _).value = some (Point.x P')
          show (do
            let a ← ((cx.mul nm.2 s).1).value
            let b ← ((cy.mul nm.1 (cx.mul nm.2 s).2).1).value
            let t ← (((cy.mul nm.2 (cy.mul nm.1 (cx.mul nm.2 s).2).2).1.mul
              (cx.mul nm.1 (cy.mul nm.2 (cy.mul nm.1 (cx.mul nm.2 s).2).2).2).1
              (cx.mul nm.1 (cy.mul nm.2 (cy.mul nm.1 (cx.mul nm.2 s).2).2).2).2).1).value
            let inv ← inverse (t * j.d + 1)
            pure ((a + b) * inv)) = some (Point.x P')
          rw [hm1, hm2, hm5]
          have harg : P.y * p.y * (P.x * p.x) * j.d + 1
              = 1 + j.d * P.x * p.x * P.y * p.y := by ring
          simp only [Option.bind_eq_bind, Option.some_bind, harg]
          rw [show inverse (1 + j.d * P.x * p.x * P.y * p.y)
              = some (1 + j.d * P.x * p.x * P.y * p.y)⁻¹ from by
            simp [inverse, hd1]]
          simp only [Option.some_bind]
          rw [hP']
          show some ((P.x * p.y + P.y * p.x)
            * (1 + j.d * P.x * p.x * P.y * p.y)⁻¹) = some _
          rw [div_eq_mul_inv]
        · show (Num.mk _ _).value = some (Point.y P')
          show (do
            let a ← ((cx.mul nm.1
              (cy.mul nm.2 (cy.mul nm.1 (cx.mul nm.2 s).2).2).2).1).value
            let b ← ((cy.mul nm.2 (cy.mul nm.1 (cx.mul nm.2 s).2).2).1).value
            let t ← (((cy.mul nm.2 (cy.mul nm.1 (cx.mul nm.2 s).2).2).1.mul
              (cx.mul nm.1 (cy.mul nm.2 (cy.mul nm.1 (cx.mul nm.2 s).2).2).2).1
              (cx.mul nm.1 (cy.mul nm.2 (cy.mul nm.1 (cx.mul nm.2 s).2).2).2).2).1).value
            let inv ← inverse (-(t * j.d) + 1)
            pure ((a + b) * inv)) = some (Point.y P')
          rw [hm4, hm3, hm5]
          have harg : -(P.y * p.y * (P.x * p.x) * j.d) + 1
              = 1 - j.d * P.x * p.x * P.y * p.y := by ring
          simp only [Option.bind_eq_bind, Option.some_bind, harg]
          rw [show inverse (1 - j.d * P.x * p.x * P.y * p.y)
              = some (1 - j.d * P.x * p.x * P.y * p.y)⁻¹ from by
            simp [inverse, hd2]]
          simp only [Option.some_bind]
          rw [hP']
          show some ((P.x * p.x + P.y * p.y)
            * (1 - j.d * P.x * p.x * P.y * p.y)⁻¹) = some _
          rw [div_eq_mul_inv]
          exact congrArg some (by ring)

set_option maxHeartbeats 1000000 in
/-- C4: for 128 tables, a 512-bit known input, and a run of the native
accumulation (identity plus the 128 selected points, in window order) that
avoids every singular denominator, the witness value pedersen_hash returns
is the y-coordinate of the native result. -/
theorem C4_pedersen_matches_native (j : JubJub) (bits : List Bit)
    (generators : List (List F × List F)) (s : CS) (q : Point)
    (hlen : bits.length = 512) (hglen : generators.length = 128)
    (hknown : ∀ b ∈ bits, (Bit.val b).isSome)
    (hnative : nativePedersen j (bits.map (fun b => b.val.getD false)) generators
        = some q) :
    (pedersen_hash bits generators j s).1.value = some q.y := by
  have hchlen : ∀ ch ∈ chunks4 bits, ch.length = 4 :=
    chunks4_length_all bits (by omega)
  have hchknown : ∀ ch ∈ chunks4 bits, ∀ b ∈ ch, b.val.isSome :=
    fun ch hch b hb => hknown b (chunks4_mem_mem bits ch hch b hb)
  have hcount : (chunks4 bits).length = 128 := by
    rw [chunks4_length, hlen]
  -- the native fold over the selected-point list
  have hnat2 : (((chunks4 bits).zip generators).map
        (fun pr => selectedPoint (pr.1.map (fun b => b.val.getD false)) pr.2)).foldl
        (fun acc p => acc.bind (fun a => a.add_assign p j)) (some Point.zero)
      = some q := by
    rw [List.foldl_map]
    rw [nativePedersen, chunks4_map, List.zip_map_left, List.foldl_map] at hnative
    exact hnative
  -- the lookups' values
  have hvals := lookupsLoop_vals (chunks4 bits) generators s hchlen hchknown
  have hvals2 : (lookupsLoop (chunks4 bits) generators s).1.map
        (fun nm => (nm.1.value, nm.2.value))
      = (((chunks4 bits).zip generators).map
          (fun pr => selectedPoint (pr.1.map (fun b => b.val.getD false)) pr.2)).map
          (fun p => (some p.x, some p.y)) := by
    rw [hvals, List.map_map]
    rfl
  have hlk : (lookupsLoop (chunks4 bits) generators s).1.length = 128 := by
    have := congrArg List.length hvals2
    simp only [List.length_map, List.length_zip, hcount, hglen] at this
    simpa using this
  -- split off the first lookup / point
  cases hlkl : (lookupsLoop (chunks4 bits) generators s).1 with
  | nil => rw [hlkl] at hlk; simp at hlk
  | cons L0 Ls =>
    cases hpsl : ((chunks4 bits).zip generators).map
        (fun pr => selectedPoint (pr.1.map (fun b => b.val.getD false)) pr.2) with
    | nil =>
      rw [hlkl, hpsl] at hvals2
      simp at hvals2
    | cons p0 pr =>
      rw [hlkl, hpsl] at hvals2
      simp only [List.map_cons, List.cons_eq_cons, Prod.mk.injEq] at hvals2
      obtain ⟨⟨hL0x, hL0y⟩, htail⟩ := hvals2
      rw [hpsl, List.foldl_cons, Option.some_bind, zero_add_assign] at hnat2
      have hLslen : Ls.length = 127 := by
        rw [hlkl] at hlk
        simpa using hlk
      show (pedersenAcc j generators.length 0
          ((lookupsLoop (chunks4 bits) generators s).1.drop 1)
          ((lookupsLoop (chunks4 bits) generators s).1.headD (dfltNum, dfltNum)).1
          ((lookupsLoop (chunks4 bits) generators s).1.headD (dfltNum, dfltNum)).2
          (lookupsLoop (chunks4 bits) generators s).2).1.value = some q.y
    
      rw [hlkl]
      exact pedersenAcc_value j generators.length Ls pr 0 L0.1 L0.2 p0 q _
        htail hL0x hL0y hnat2
        (by intro k hk; rw [hLslen] at hk; omega)

/-- The only addition the concrete C4 witness run performs. -/
theorem add_OO : (Point.mk (0 : F) 0).add_assign (Point.mk 0 0) JubJub.new
    = some (Point.mk 0 0) := by
  rw [Point.add_assign_eq]
  have h : ¬(1 + JubJub.new.d * (Point.mk (0 : F) 0).x * (Point.mk (0 : F) 0).x
        * (Point.mk (0 : F) 0).y * (Point.mk (0 : F) 0).y = 0 ∨
      1 - JubJub.new.d * (Point.mk (0 : F) 0).x * (Point.mk (0 : F) 0).x
        * (Point.mk (0 : F) 0).y * (Point.mk (0 : F) 0).y = 0) := by
    simp
  rw [if_neg h]
  simp

theorem fold_pairs_OO (n : Nat) :
    (List.replicate n (([false, false, false, false],
        (([] : List F), ([] : List F))))).foldl
      (fun acc pr => acc.bind
        (fun a => a.add_assign (selectedPoint pr.1 pr.2) JubJub.new))
      (some (Point.mk 0 0)) = some (Point.mk 0 0) := by
  induction n with
  | zero => rfl
  | succ n ih =>
    rw [List.replicate_succ, List.foldl_cons, Option.some_bind,
      show selectedPoint [false, false, false, false] (([] : List F), ([] : List F))
        = Point.mk 0 0 from rfl,
      add_OO]
    exact ih

theorem C4_witness_native :
    nativePedersen JubJub.new
      ((List.replicate 512 (Bit.mk 0 (some false))).map (fun b => b.val.getD false))
      (List.replicate 128 (([] : List F), ([] : List F))) = some (Point.mk 0 0) := by
  show ((chunks4 ((List.replicate 512 (Bit.mk 0 (some false))).map
        (fun b => b.val.getD false))).zip
      (List.replicate 128 (([] : List F), ([] : List F)))).foldl
      (fun acc pr => acc.bind
        (fun a => a.add_assign (selectedPoint pr.1 pr.2) JubJub.new))
      (some Point.zero) = some (Point.mk 0 0)
  rw [show ((chunks4 ((List.replicate 512 (Bit.mk 0 (some false))).map
        (fun b => b.val.getD false))).zip
      (List.replicate 128 (([] : List F), ([] : List F))))
      = List.replicate 128 ([false, false, false, false],
          (([] : List F), ([] : List F))) from rfl]
  rw [show (128 : Nat) = 127 + 1 from rfl, List.replicate_succ, List.foldl_cons,
    Option.some_bind,
    show selectedPoint [false, false, false, false] (([] : List F), ([] : List F))
      = Point.mk 0 0 from rfl,
    zero_add_assign]
  exact fold_pairs_OO 127

/-- Witness for C4: 512 known zero bits against 128 empty tables; the native
accumulation stays at (0,0) and the circuit value is its y-coordinate 0. -/
theorem C4_pedersen_matches_native_witness :
    (List.replicate 512 (Bit.mk 0 (some false))).length = 512 ∧
    (List.replicate 128 (([] : List F), ([] : List F))).length = 128 ∧
    (∀ b ∈ List.replicate 512 (Bit.mk 0 (some false)), (Bit.val b).isSome) ∧
    nativePedersen JubJub.new
      ((List.replicate 512 (Bit.mk 0 (some false))).map (fun b => b.val.getD false))
      (List.replicate 128 (([] : List F), ([] : List F))) = some (Point.mk 0 0) ∧
    (pedersen_hash (List.replicate 512 (Bit.mk 0 (some false)))
        (List.replicate 128 (([] : List F), ([] : List F))) JubJub.new CS.init).1.value
      = some (Point.mk (0 : F) 0).y :=
  ⟨by simp, by simp, by simp, C4_witness_native,
   C4_pedersen_matches_native JubJub.new _ _ CS.init (Point.mk 0 0)
     (by simp) (by simp) (by simp) C4_witness_native⟩

/-! ## C3: witness-independence of the constraint topology -/

/-- Equal topology: same allocation counter and same constraint list
(assignments may differ arbitrarily). -/
def CS.sameTopo (s t : CS) : Prop := s.next = t.next ∧ s.constraints = t.constraints

/-- Same circuit shape for signed booleans: same constructor and same wire;
stored witness values may differ. -/
def FunBit.sameShape : FunBit → FunBit → Prop
  | .Constant x, .Constant y => x = y
  | .Is v _, .Is w _ => v = w
  | .Not v _, .Not w _ => v = w
  | _, _ => False

theorem sameShape_not {a a' : FunBit} (h : a.sameShape a') :
    a.not.sameShape a'.not := by
  rcases a with xa | ⟨av, aval⟩ | ⟨av, aval⟩ <;>
    rcases a' with xa' | ⟨av', aval'⟩ | ⟨av', aval'⟩ <;>
    simp_all [FunBit.sameShape, FunBit.not]

theorem bitAlloc_topo (s t : CS) (v w : Option Bool) (h : s.sameTopo t) :
    (Bit.alloc s v).1.var = (Bit.alloc t w).1.var ∧
    (Bit.alloc s v).2.sameTopo (Bit.alloc t w).2 := by
  obtain ⟨hn, hc⟩ := h
  refine ⟨hn, ?_, ?_⟩ <;>
    simp [Bit.alloc, CS.alloc, CS.enforce, hn, hc]

theorem bitAnd_topo (a a' b b' : Bit) (s t : CS)
    (ha : a.var = a'.var) (hb : b.var = b'.var) (h : s.sameTopo t) :
    (Bit.and a b s).1.var = (Bit.and a' b' t).1.var ∧
    (Bit.and a b s).2.sameTopo (Bit.and a' b' t).2 := by
  obtain ⟨hn, hc⟩ := h
  refine ⟨hn, ?_, ?_⟩ <;>
    simp [Bit.and, CS.alloc, CS.enforce, hn, hc, ha, hb]

theorem numMul_topo (a a' b b' : Num) (s t : CS)
    (ha : a.var = a'.var) (hb : b.var = b'.var) (h : s.sameTopo t) :
    (a.mul b s).1.var = (a'.mul b' t).1.var ∧
    (a.mul b s).2.sameTopo (a'.mul b' t).2 := by
  obtain ⟨hn, hc⟩ := h
  refine ⟨hn, ?_, ?_⟩ <;>
    simp [Num.mul, CS.alloc, CS.enforce, hn, hc, ha, hb]

theorem funBitXor_topo (a a' b b' : FunBit) (s t : CS)
    (ha : a.sameShape a') (hb : b.sameShape b') (h : s.sameTopo t) :
    (FunBit.xor a b s).1.sameShape (FunBit.xor a' b' t).1 ∧
    (FunBit.xor a b s).2.sameTopo (FunBit.xor a' b' t).2 := by
  obtain ⟨hn, hc⟩ := h
  rcases a with xa | ⟨av, aval⟩ | ⟨av, aval⟩ <;>
    rcases a' with xa' | ⟨av', aval'⟩ | ⟨av', aval'⟩ <;>
    simp only [FunBit.sameShape] at ha <;>
    first
    | exact ha.elim
    | (rcases b with xb | ⟨bv, bval⟩ | ⟨bv, bval⟩ <;>
        rcases b' with xb' | ⟨bv', bval'⟩ | ⟨bv', bval'⟩ <;>
        simp only [FunBit.sameShape] at hb <;>
        first
        | exact hb.elim
        | (subst ha; subst hb;
           (try cases xa) <;> (try cases xa') <;>
           (try cases xb) <;> (try cases xb') <;>
           refine ⟨?_, ?_, ?_⟩ <;>
           simp [FunBit.xor, FunBit.not, FunBit.xorAlloc, FunBit.sameShape,
             CS.sameTopo, CS.alloc, CS.enforce, hn, hc]))

theorem funBitAnd_topo (a a' b b' : FunBit) (s t : CS)
    (ha : a.sameShape a') (hb : b.sameShape b') (h : s.sameTopo t) :
    (FunBit.and a b s).1.sameShape (FunBit.and a' b' t).1 ∧
    (FunBit.and a b s).2.sameTopo (FunBit.and a' b' t).2 := by
  obtain ⟨hn, hc⟩ := h
  rcases a with xa | ⟨av, aval⟩ | ⟨av, aval⟩ <;>
    rcases a' with xa' | ⟨av', aval'⟩ | ⟨av', aval'⟩ <;>
    simp only [FunBit.sameShape] at ha <;>
    first
    | exact ha.elim
    | (rcases b with xb | ⟨bv, bval⟩ | ⟨bv, bval⟩ <;>
        rcases b' with xb' | ⟨bv', bval'⟩ | ⟨bv', bval'⟩ <;>
        simp only [FunBit.sameShape] at hb <;>
        first
        | exact hb.elim
        | (subst ha; subst hb;
           (try cases xa) <;> (try cases xa') <;>
           (try cases xb) <;> (try cases xb') <;>
           refine ⟨?_, ?_, ?_⟩ <;>
           simp [FunBit.and, FunBit.not, FunBit.sameShape,
             CS.sameTopo, CS.alloc, CS.enforce, hn, hc]))

theorem funBitOr_topo (a a' b b' : FunBit) (s t : CS)
    (ha : a.sameShape a') (hb : b.sameShape b') (h : s.sameTopo t) :
    (FunBit.or a b s).1.sameShape (FunBit.or a' b' t).1 ∧
    (FunBit.or a b s).2.sameTopo (FunBit.or a' b' t).2 := by
  have h1 := funBitAnd_topo a.not a'.not b.not b'.not s t
    (sameShape_not ha) (sameShape_not hb) h
  exact ⟨sameShape_not h1.1, h1.2⟩

theorem assert_is_false_topo (a a' : FunBit) (s t : CS)
    (ha : a.sameShape a') (h : s.sameTopo t) :
    (FunBit.assert_is_false a s).sameTopo (FunBit.assert_is_false a' t) := by
  obtain ⟨hn, hc⟩ := h
  rcases a with xa | ⟨av, aval⟩ | ⟨av, aval⟩ <;>
    rcases a' with xa' | ⟨av', aval'⟩ | ⟨av', aval'⟩ <;>
    simp only [FunBit.sameShape] at ha <;>
    first
    | exact ha.elim
    | (subst ha
       exact ⟨hn, hc⟩)
    | (subst ha
       refine ⟨?_, ?_⟩ <;>
       simp [FunBit.assert_is_false, CS.enforce, hn, hc])
    | (refine ⟨?_, ?_⟩ <;>
       simp [FunBit.assert_is_false, CS.enforce, hn, hc])

theorem subChain_topo :
    ∀ (zl1 zl2 : List (Bool × Bit)) (c1 c2 : FunBit) (s t : CS),
      zl1.map (fun p => (p.1, p.2.var)) = zl2.map (fun p => (p.1, p.2.var)) →
      c1.sameShape c2 → s.sameTopo t →
      (subChain zl1 c1 s).1.sameShape (subChain zl2 c2 t).1 ∧
      (subChain zl1 c1 s).2.sameTopo (subChain zl2 c2 t).2 := by
  intro zl1
  induction zl1 with
  | nil =>
    intro zl2 c1 c2 s t hv hc h
    cases zl2 with
    | nil => exact ⟨hc, h⟩
    | cons _ _ => simp at hv
  | cons p1 rest1 ih =>
    intro zl2 c1 c2 s t hv hc h
    cases zl2 with
    | nil => simp at hv
    | cons p2 rest2 =>
      obtain ⟨a1, b1⟩ := p1
      obtain ⟨a2, b2⟩ := p2
      simp only [List.map_cons, List.cons_eq_cons, Prod.mk.injEq] at hv
      obtain ⟨⟨hm, hb⟩, hr⟩ := hv
      subst hm
      have h1 := funBitXor_topo (FunBit.Constant a1) (FunBit.Constant a1)
        (FunBit.from_bit b1) (FunBit.from_bit b2) s t rfl
        (by simp [FunBit.sameShape, FunBit.from_bit, hb]) h
      have h2 := funBitAnd_topo (FunBit.Constant a1).not (FunBit.Constant a1).not
        (FunBit.from_bit b1) (FunBit.from_bit b2) _ _
        (sameShape_not rfl)
        (by simp [FunBit.sameShape, FunBit.from_bit, hb]) h1.2
      have h3 := funBitAnd_topo _ _ _ _ _ _ (sameShape_not h1.1) hc h2.2
      have h4 := funBitOr_topo _ _ _ _ _ _ h2.1 h3.1 h3.2
      exact ih rest2 _ _ _ _ hr h4.1 h4.2

theorem getD_map_var (l : List Bit) :
    ∀ k, (l.map Bit.var).getD k 0 = (l.getD k dfltBit).var := by
  induction l with
  | nil => intro k; rfl
  | cons x xs ih =>
    intro k
    cases k with
    | zero => rfl
    | succ k => simpa using ih k

theorem getD_var_opt (o : Option Bit) :
    (o.map Bit.var).getD 0 = (o.getD dfltBit).var := by
  cases o <;> rfl

theorem assert_less_than_r_topo (l1 l2 : List Bit) (s t : CS)
    (hv : l1.map Bit.var = l2.map Bit.var) (h : s.sameTopo t) :
    (assert_less_than_r l1 s).sameTopo (assert_less_than_r l2 t) := by
  have hz : (rBits.zip l1).map (fun p => (p.1, p.2.var))
      = (rBits.zip l2).map (fun p => (p.1, p.2.var)) := by
    rw [show ((rBits.zip l1).map (fun p => (p.1, p.2.var)))
        = rBits.zip (l1.map Bit.var) from (List.zip_map_right _ _ _).symm,
      show ((rBits.zip l2).map (fun p => (p.1, p.2.var)))
        = rBits.zip (l2.map Bit.var) from (List.zip_map_right _ _ _).symm, hv]
  have hsc := subChain_topo (rBits.zip l1) (rBits.zip l2)
    (FunBit.Constant false) (FunBit.Constant false) s t hz rfl h
  exact assert_is_false_topo _ _ _ _ hsc.1 hsc.2

theorem packTerms_eq :
    ∀ (l1 l2 : List Bit) (c : F), l1.map Bit.var = l2.map Bit.var →
      packTerms l1 c = packTerms l2 c := by
  intro l1
  induction l1 with
  | nil =>
    intro l2 c hv
    cases l2 with
    | nil => rfl
    | cons _ _ => simp at hv
  | cons x xs ih =>
    intro l2 c hv
    cases l2 with
    | nil => simp at hv
    | cons y ys =>
      simp only [List.map_cons, List.cons_eq_cons] at hv
      obtain ⟨hxy, hr⟩ := hv
      show (c, x.var) :: packTerms xs (c * 2) = (c, y.var) :: packTerms ys (c * 2)
      rw [hxy, ih ys (c * 2) hr]

theorem allocBits_topo :
    ∀ (v1 v2 : List (Option Bool)) (s t : CS), v1.length = v2.length →
      s.sameTopo t →
      (allocBits v1 s).1.map Bit.var = (allocBits v2 t).1.map Bit.var ∧
      (allocBits v1 s).2.sameTopo (allocBits v2 t).2 := by
  intro v1
  induction v1 with
  | nil =>
    intro v2 s t hl h
    cases v2 with
    | nil => exact ⟨rfl, h⟩
    | cons _ _ => simp at hl
  | cons x xs ih =>
    intro v2 s t hl h
    cases v2 with
    | nil => simp at hl
    | cons y ys =>
      have hba := bitAlloc_topo s t x y h
      have hrest := ih ys (Bit.alloc s x).2 (Bit.alloc t y).2 (by simpa using hl)
        hba.2
      refine ⟨?_, hrest.2⟩
      show ((Bit.alloc s x).1 :: (allocBits xs (Bit.alloc s x).2).1).map Bit.var
        = ((Bit.alloc t y).1 :: (allocBits ys (Bit.alloc t y).2).1).map Bit.var
      simp only [List.map_cons, hba.1, hrest.1]

theorem assignment_into_bits_topo (n1 n2 : Option F) (s t : CS)
    (h : s.sameTopo t) :
    (assignment_into_bits n1 s).1.map Bit.var
      = (assignment_into_bits n2 t).1.map Bit.var ∧
    (assignment_into_bits n1 s).2.sameTopo (assignment_into_bits n2 t).2 := by
  have hlen : ∀ (n : Option F), (match n with
      | some v => ((reprBitsBE v).reverse.take 255).map some
      | none => List.replicate 255 none).length = 255 := by
    intro n
    cases n with
    | some v => simp [reprBitsBE]
    | none => simp
  cases n1 with
  | some v1 =>
    cases n2 with
    | some v2 =>
      exact allocBits_topo _ _ s t (by simpa using (hlen (some v1)).trans (hlen (some v2)).symm) h
    | none =>
      exact allocBits_topo _ _ s t (by simpa using (hlen (some v1)).trans (hlen none).symm) h
  | none =>
    cases n2 with
    | some v2 =>
      exact allocBits_topo _ _ s t (by simpa using (hlen none).trans (hlen (some v2)).symm) h
    | none => exact allocBits_topo _ _ s t rfl h

theorem unpack_topo (n1 n2 : Num) (s t : CS) (hvar : n1.var = n2.var)
    (h : s.sameTopo t) :
    (n1.unpack s).1.map Bit.var = (n2.unpack t).1.map Bit.var ∧
    (n1.unpack s).2.sameTopo (n2.unpack t).2 := by
  have hb := assignment_into_bits_topo n1.value n2.value s t h
  have hpk := packTerms_eq _ _ 1 hb.1
  have henf : ((assignment_into_bits n1.value s).2.enforce LinearCombination.zero
      LinearCombination.zero
      (LinearCombination.subVar (packTerms (assignment_into_bits n1.value s).1 1)
        n1.var)).sameTopo
      ((assignment_into_bits n2.value t).2.enforce LinearCombination.zero
      LinearCombination.zero
      (LinearCombination.subVar (packTerms (assignment_into_bits n2.value t).1 1)
        n2.var)) := by
    obtain ⟨hn, hc⟩ := hb.2
    refine ⟨?_, ?_⟩ <;> simp [CS.enforce, hn, hc, hpk, hvar]
  exact ⟨hb.1, assert_less_than_r_topo _ _ _ _ hb.1 henf⟩

theorem coordinate_lookup_topo (table : List F)
    (bits1 bits2 : List Bit) (a1 a2 b1 b2 c1 c2 d1 d2 : Bit) (s t : CS)
    (hbits : bits1.map Bit.var = bits2.map Bit.var)
    (ha : a1.var = a2.var) (hb : b1.var = b2.var) (hc : c1.var = c2.var)
    (hd : d1.var = d2.var) (h : s.sameTopo t) :
    (coordinate_lookup table bits1 a1 b1 c1 d1 s).1.var
      = (coordinate_lookup table bits2 a2 b2 c2 d2 t).1.var ∧
    (coordinate_lookup table bits1 a1 b1 c1 d1 s).2.sameTopo
      (coordinate_lookup table bits2 a2 b2 c2 d2 t).2 := by
  have hg : ∀ k : Nat, ((bits1[k]?.getD dfltBit).var : Variable)
      = (bits2[k]?.getD dfltBit).var := by
    intro k
    rw [← getD_var_opt, ← getD_var_opt, ← List.getElem?_map, ← List.getElem?_map,
      hbits]
  obtain ⟨hn, hc'⟩ := h
  refine ⟨hn, ?_, ?_⟩ <;>
    simp [coordinate_lookup, CS.alloc, CS.enforce, hn, hc', hg 0, hg 1, hg 2,
      hg 3, ha, hb, hc, hd]

theorem point_lookup_topo (xt yt : List F) (bits1 bits2 : List Bit) (s t : CS)
    (hbits : bits1.map Bit.var = bits2.map Bit.var) (h : s.sameTopo t) :
    (point_lookup xt yt bits1 s).1.1.var = (point_lookup xt yt bits2 t).1.1.var ∧
    (point_lookup xt yt bits1 s).1.2.var = (point_lookup xt yt bits2 t).1.2.var ∧
    (point_lookup xt yt bits1 s).2.sameTopo (point_lookup xt yt bits2 t).2 := by
  have hg : ∀ k, ((bits1.getD k dfltBit).var : Variable)
      = (bits2.getD k dfltBit).var := by
    intro k
    rw [← getD_map_var bits1 k, ← getD_map_var bits2 k, hbits]
  have h1 := bitAnd_topo (bits1.getD 1 dfltBit) (bits2.getD 1 dfltBit)
    (bits1.getD 2 dfltBit) (bits2.getD 2 dfltBit) s t (hg 1) (hg 2) h
  have h2 := bitAnd_topo (bits1.getD 3 dfltBit) (bits2.getD 3 dfltBit)
    (bits1.getD 1 dfltBit) (bits2.getD 1 dfltBit) _ _ (hg 3) (hg 1) h1.2
  have h3 := bitAnd_topo (bits1.getD 3 dfltBit) (bits2.getD 3 dfltBit)
    (bits1.getD 2 dfltBit) (bits2.getD 2 dfltBit) _ _ (hg 3) (hg 2) h2.2
  have h4 := bitAnd_topo _ _ (bits1.getD 1 dfltBit) (bits2.getD 1 dfltBit) _ _
    h3.1 (hg 1) h3.2
  have h5 := coordinate_lookup_topo xt bits1 bits2 _ _ _ _ _ _ _ _ _ _
    hbits h1.1 h2.1 h3.1 h4.1 h4.2
  have h6 := coordinate_lookup_topo yt bits1 bits2 _ _ _ _ _ _ _ _ _ _
    hbits h1.1 h2.1 h3.1 h4.1 h5.2
  exact ⟨h5.1, h6.1, h6.2⟩

theorem lookupsLoop_topo :
    ∀ (ch1 ch2 : List (List Bit)) (gens : List (List F × List F)) (s t : CS),
      ch1.map (List.map Bit.var) = ch2.map (List.map Bit.var) →
      s.sameTopo t →
      (lookupsLoop ch1 gens s).1.map (fun nm => (nm.1.var, nm.2.var))
        = (lookupsLoop ch2 gens t).1.map (fun nm => (nm.1.var, nm.2.var)) ∧
      (lookupsLoop ch1 gens s).2.sameTopo (lookupsLoop ch2 gens t).2 := by
  intro ch1
  induction ch1 with
  | nil =>
    intro ch2 gens s t hv h
    cases ch2 with
    | nil =>
      cases gens with
      | nil => exact ⟨rfl, h⟩
      | cons _ _ => exact ⟨rfl, h⟩
    | cons _ _ => simp at hv
  | cons c1 r1 ih =>
    intro ch2 gens s t hv h
    cases ch2 with
    | nil => simp at hv
    | cons c2 r2 =>
      simp only [List.map_cons, List.cons_eq_cons] at hv
      obtain ⟨hcc, hrr⟩ := hv
      cases gens with
      | nil => exact ⟨rfl, h⟩
      | cons tb gt =>
        have hp := point_lookup_topo tb.1 tb.2 c1 c2 s t hcc h
        have hrec := ih r2 gt _ _ hrr hp.2.2
        refine ⟨?_, hrec.2⟩
        show ((point_lookup tb.1 tb.2 c1 s).1
            :: (lookupsLoop r1 gt (point_lookup tb.1 tb.2 c1 s).2).1).map
            (fun nm => (nm.1.var, nm.2.var))
          = ((point_lookup tb.1 tb.2 c2 t).1
            :: (lookupsLoop r2 gt (point_lookup tb.1 tb.2 c2 t).2).1).map
            (fun nm => (nm.1.var, nm.2.var))
        simp only [List.map_cons, hp.1, hp.2.1, hrec.1]

theorem pedersenAcc_topo (j : JubJub) (glen : Nat) :
    ∀ (l1 l2 : List (Num × Num)) (i : Nat) (cx1 cx2 cy1 cy2 : Num) (s t : CS),
      l1.map (fun nm => (nm.1.var, nm.2.var))
        = l2.map (fun nm => (nm.1.var, nm.2.var)) →
      cx1.var = cx2.var → cy1.var = cy2.var → s.sameTopo t →
      (pedersenAcc j glen i l1 cx1 cy1 s).1.var
        = (pedersenAcc j glen i l2 cx2 cy2 t).1.var ∧
      (pedersenAcc j glen i l1 cx1 cy1 s).2.sameTopo
        (pedersenAcc j glen i l2 cx2 cy2 t).2 := by
  intro l1
  induction l1 with
  | nil =>
    intro l2 i cx1 cx2 cy1 cy2 s t hv hx hy h
    cases l2 with
    | nil => exact ⟨hy, h⟩
    | cons _ _ => simp at hv
  | cons nm1 r1 ih =>
    intro l2 i cx1 cx2 cy1 cy2 s t hv hx hy h
    cases l2 with
    | nil => simp at hv
    | cons nm2 r2 =>
      simp only [List.map_cons, List.cons_eq_cons, Prod.mk.injEq] at hv
      obtain ⟨⟨hn1, hn2⟩, hvr⟩ := hv
      have hm1 := numMul_topo cx1 cx2 nm1.2 nm2.2 s t hx hn2 h
      have hm2 := numMul_topo cy1 cy2 nm1.1 nm2.1 _ _ hy hn1 hm1.2
      have hm3 := numMul_topo cy1 cy2 nm1.2 nm2.2 _ _ hy hn2 hm2.2
      have hm4 := numMul_topo cx1 cx2 nm1.1 nm2.1 _ _ hx hn1 hm3.2
      have hm5 := numMul_topo _ _ _ _ _ _ hm3.1 hm4.1 hm4.2
      by_cases hgi : i ≠ glen - 1
      · -- x3 branch taken on both sides
        obtain ⟨hn5, hc5⟩ := hm5.2
        simp only [pedersenAcc]
        rw [if_pos hgi, if_pos hgi]
        refine ih r2 (i + 1) _ _ _ _ _ _ hvr ?_ ?_ ?_
        · simp [CS.alloc, CS.enforce, hn5]
        · simp [CS.alloc, CS.enforce, hn5]
        · refine ⟨?_, ?_⟩ <;>
            simp [CS.alloc, CS.enforce, hn5, hc5, hm1.1, hm2.1, hm3.1, hm4.1,
              hm5.1]
      · obtain ⟨hn5, hc5⟩ := hm5.2
        simp only [pedersenAcc]
        rw [if_neg hgi, if_neg hgi]
        refine ih r2 (i + 1) _ _ _ _ _ _ hvr hx ?_ ?_
        · simp [CS.alloc, CS.enforce, hn5]
        · refine ⟨?_, ?_⟩ <;>
            simp [CS.alloc, CS.enforce, hn5, hc5, hm3.1, hm4.1, hm5.1]

theorem pedersen_hash_topo (bits1 bits2 : List Bit)
    (generators : List (List F × List F)) (j : JubJub) (s t : CS)
    (hbits : bits1.map Bit.var = bits2.map Bit.var) (h : s.sameTopo t) :
    (pedersen_hash bits1 generators j s).1.var
      = (pedersen_hash bits2 generators j t).1.var ∧
    (pedersen_hash bits1 generators j s).2.sameTopo
      (pedersen_hash bits2 generators j t).2 := by
  have hch : (chunks4 bits1).map (List.map Bit.var)
      = (chunks4 bits2).map (List.map Bit.var) := by
    rw [← chunks4_map Bit.var bits1, ← chunks4_map Bit.var bits2, hbits]
  have hlk := lookupsLoop_topo (chunks4 bits1) (chunks4 bits2) generators s t
    hch h
  have hhead : ((lookupsLoop (chunks4 bits1) generators s).1.headD
        (dfltNum, dfltNum)).1.var
      = ((lookupsLoop (chunks4 bits2) generators t).1.headD
        (dfltNum, dfltNum)).1.var ∧
      ((lookupsLoop (chunks4 bits1) generators s).1.headD
        (dfltNum, dfltNum)).2.var
      = ((lookupsLoop (chunks4 bits2) generators t).1.headD
        (dfltNum, dfltNum)).2.var := by
    cases h1 : (lookupsLoop (chunks4 bits1) generators s).1 with
    | nil =>
      cases h2 : (lookupsLoop (chunks4 bits2) generators t).1 with
      | nil => exact ⟨rfl, rfl⟩
      | cons _ _ =>
        rw [h1, h2] at hlk
        exact absurd hlk.1 (by simp)
    | cons a1 r1 =>
      cases h2 : (lookupsLoop (chunks4 bits2) generators t).1 with
      | nil =>
        rw [h1, h2] at hlk
        exact absurd hlk.1 (by simp)
      | cons a2 r2 =>
        rw [h1, h2] at hlk
        have := hlk.1
        simp only [List.map_cons, List.cons_eq_cons, Prod.mk.injEq] at this
        exact ⟨this.1.1, this.1.2⟩
  have hdrop : ((lookupsLoop (chunks4 bits1) generators s).1.drop 1).map
        (fun nm => (nm.1.var, nm.2.var))
      = ((lookupsLoop (chunks4 bits2) generators t).1.drop 1).map
        (fun nm => (nm.1.var, nm.2.var)) := by
    simp only [List.map_drop]
    rw [hlk.1]
  exact pedersenAcc_topo j generators.length _ _ 0 _ _ _ _ _ _ hdrop
    hhead.1 hhead.2 hlk.2

/-- C3: the constraint topology produced by the gadgets is independent of
witness availability: running any of Bit.alloc, Bit.and, the FunBit gates,
Num.unpack or pedersen_hash at two states with equal allocation counter and
equal constraint list, with inputs on the same wires but arbitrarily
differing witness values (in particular all-known versus all-unknown),
allocates the same variables in the same order and emits the same constraint
sequence, returning outputs on the same wires. -/
theorem C3_topology_witness_independent :
    (∀ (s t : CS) (v w : Option Bool), s.sameTopo t →
      (Bit.alloc s v).1.var = (Bit.alloc t w).1.var ∧
      (Bit.alloc s v).2.sameTopo (Bit.alloc t w).2) ∧
    (∀ (a a' b b' : Bit) (s t : CS), a.var = a'.var → b.var = b'.var →
      s.sameTopo t →
      (Bit.and a b s).1.var = (Bit.and a' b' t).1.var ∧
      (Bit.and a b s).2.sameTopo (Bit.and a' b' t).2) ∧
    (∀ (a a' b b' : FunBit) (s t : CS), a.sameShape a' → b.sameShape b' →
      s.sameTopo t →
      ((FunBit.xor a b s).1.sameShape (FunBit.xor a' b' t).1 ∧
       (FunBit.xor a b s).2.sameTopo (FunBit.xor a' b' t).2) ∧
      ((FunBit.and a b s).1.sameShape (FunBit.and a' b' t).1 ∧
       (FunBit.and a b s).2.sameTopo (FunBit.and a' b' t).2) ∧
      ((FunBit.or a b s).1.sameShape (FunBit.or a' b' t).1 ∧
       (FunBit.or a b s).2.sameTopo (FunBit.or a' b' t).2)) ∧
    (∀ (n1 n2 : Num) (s t : CS), n1.var = n2.var → s.sameTopo t →
      (n1.unpack s).1.map Bit.var = (n2.unpack t).1.map Bit.var ∧
      (n1.unpack s).2.sameTopo (n2.unpack t).2) ∧
    (∀ (bits1 bits2 : List Bit) (generators : List (List F × List F))
       (j : JubJub) (s t : CS),
      bits1.map Bit.var = bits2.map Bit.var → s.sameTopo t →
      (pedersen_hash bits1 generators j s).1.var
        = (pedersen_hash bits2 generators j t).1.var ∧
      (pedersen_hash bits1 generators j s).2.sameTopo
        (pedersen_hash bits2 generators j t).2) :=
  ⟨fun s t v w h => bitAlloc_topo s t v w h,
   fun a a' b b' s t ha hb h => bitAnd_topo a a' b b' s t ha hb h,
   fun a a' b b' s t ha hb h =>
     ⟨funBitXor_topo a a' b b' s t ha hb h,
      funBitAnd_topo a a' b b' s t ha hb h,
      funBitOr_topo a a' b b' s t ha hb h⟩,
   fun n1 n2 s t hv h => unpack_topo n1 n2 s t hv h,
   fun bits1 bits2 generators j s t hb h =>
     pedersen_hash_topo bits1 bits2 generators j s t hb h⟩

/-- Witness for C3: a known-bit run against an unknown-bit run of
pedersen_hash on the same wire. -/
theorem C3_topology_witness_independent_witness :
    ([Bit.mk 1 (some true)].map Bit.var = [Bit.mk 1 none].map Bit.var) ∧
    CS.init.sameTopo CS.init ∧
    ((pedersen_hash [Bit.mk 1 (some true)] [] JubJub.new CS.init).1.var
      = (pedersen_hash [Bit.mk 1 none] [] JubJub.new CS.init).1.var ∧
     (pedersen_hash [Bit.mk 1 (some true)] [] JubJub.new CS.init).2.sameTopo
      (pedersen_hash [Bit.mk 1 none] [] JubJub.new CS.init).2) :=
  ⟨rfl, ⟨rfl, rfl⟩,
   C3_topology_witness_independent.2.2.2.2 [Bit.mk 1 (some true)]
     [Bit.mk 1 none] [] JubJub.new CS.init CS.init rfl ⟨rfl, rfl⟩⟩

/-- C8: for all field elements `xl`, `xr` and every round-constant list of
length `MIMC_ROUNDS`, the witness value of the final `xl` variable produced
by `MiMCDemo::synthesize` equals the native `mimc(xl, xr, constants)`
(each round maps `(xl, xr)` to `(xr + (xl + cᵢ)³, xl)`, output the final
`xl`). -/
theorem C8_mimc_circuit_matches_native (xl xr : F) (constants : List F)
    (_hlen : constants.length = MIMC_ROUNDS) (s : CS) :
    (((MiMCDemo.mk (some xl) (some xr) constants).synthesize s).1).2 =
      some (mimc xl xr constants) := by
  simp only [MiMCDemo.synthesize, CS.alloc]
  exact mimcRounds_value constants xl xr _ _ _

/-- Witness for C8 at `xl = xr = 0` and 300 zero round constants. -/
theorem C8_mimc_circuit_matches_native_witness :
    (((MiMCDemo.mk (some 0) (some 0) (List.replicate 300 (0 : F))).synthesize
      CS.init).1).2 = some (mimc 0 0 (List.replicate 300 (0 : F))) :=
  C8_mimc_circuit_matches_native 0 0 (List.replicate 300 (0 : F))
    (by simp [MIMC_ROUNDS]) CS.init

/-- C9: every point produced by a successful `Point::rand` attempt lies on
the twisted-Edwards curve `−x² + y² = 1 + d·x²·y²` — both the sampled
`(x, y)` and the value returned after the three doublings — and every
x/y entry of every table produced by `generate_constant_table` is a
coordinate of one of the sampled points (hence of an on-curve point). -/
theorem C9_rand_and_tables_on_curve (j : JubJub) :
    (∀ y x n, Point.randCandidate y j = some n → x * x = n →
      (Point.mk x y).is_on_curve j ∧
        ∀ p', Point.randReturn x y j = some p' → p'.is_on_curve j) ∧
    (∀ ps : List Point, (∀ p ∈ ps, p.is_on_curve j) →
      ∀ tb ∈ generate_constant_table ps,
        (∀ v ∈ tb.1, ∃ p, p ∈ ps ∧ v = p.x ∧ p.is_on_curve j) ∧
        (∀ v ∈ tb.2, ∃ p, p ∈ ps ∧ v = p.y ∧ p.is_on_curve j)) := by
  constructor
  · intro y x n hc hx
    have h0 := Point.randCandidate_on_curve x y n j hc hx
    exact ⟨h0, fun p' hp' => Point.randReturn_on_curve x y j h0 p' hp'⟩
  · intro ps hps tb htb
    have h := generate_constant_table_mem ps tb htb
    refine ⟨fun v hv => ?_, fun v hv => ?_⟩
    · obtain ⟨p, hp, rfl⟩ := h.1 v hv
      exact ⟨p, hp, rfl, hps p hp⟩
    · obtain ⟨p, hp, rfl⟩ := h.2 v hv
      exact ⟨p, hp, rfl, hps p hp⟩

/-- Witness for C9 at the concrete sample `y = 1`, `x = 0` (the identity
point) and the one-point table list. -/
theorem C9_rand_and_tables_on_curve_witness :
    (Point.mk 0 1).is_on_curve JubJub.new ∧
    (∀ p', Point.randReturn 0 1 JubJub.new = some p' →
      p'.is_on_curve JubJub.new) ∧
    (∀ tb ∈ generate_constant_table [Point.mk 0 1],
      (∀ v ∈ tb.1, ∃ p, p ∈ [Point.mk 0 1] ∧ v = p.x ∧ p.is_on_curve JubJub.new) ∧
      (∀ v ∈ tb.2, ∃ p, p ∈ [Point.mk 0 1] ∧ v = p.y ∧ p.is_on_curve JubJub.new)) := by
  have h := C9_rand_and_tables_on_curve JubJub.new
  have hc : Point.randCandidate 1 JubJub.new = some 0 := by
    have hne : JubJub.new.d + 1 ≠ 0 := by decide
    simp [Point.randCandidate, inverse, hne]
  have h1 := h.1 1 0 0 hc (by norm_num)
  exact ⟨h1.1, h1.2, h.2 [Point.mk 0 1] (by
    intro p hp
    rw [List.mem_singleton.mp hp]
    decide)⟩

/-- C10: the native point addition is partial exactly on the singular
denominators of the incomplete law — `add_assign p q` fails (the source
`unwrap` panics, modelled as `none`) iff `1 + d·x_p·x_q·y_p·y_q = 0` or
`1 − d·x_p·x_q·y_p·y_q = 0` — and otherwise produces the incomplete
twisted-Edwards sum. -/
theorem C10_add_assign_incomplete (p q : Point) (j : JubJub) :
    (p.add_assign q j = none ↔
      1 + j.d * p.x * q.x * p.y * q.y = 0 ∨
        1 - j.d * p.x * q.x * p.y * q.y = 0) ∧
    (1 + j.d * p.x * q.x * p.y * q.y ≠ 0 →
      1 - j.d * p.x * q.x * p.y * q.y ≠ 0 →
      p.add_assign q j =
        some ⟨(p.x * q.y + p.y * q.x) / (1 + j.d * p.x * q.x * p.y * q.y),
              (p.y * q.y + p.x * q.x) / (1 - j.d * p.x * q.x * p.y * q.y)⟩) := by
  have he := Point.add_assign_eq p q j
  constructor
  · rw [he]
    split_ifs with h
    · simp [h]
    · simp [h]
  · intro h1 h2
    rw [he, if_neg (by tauto)]

/-- Witness for C10 at the identity point added to itself. -/
theorem C10_add_assign_incomplete_witness :
    Point.add_assign Point.zero Point.zero JubJub.new =
      some ⟨(Point.zero.x * Point.zero.y + Point.zero.y * Point.zero.x) /
              (1 + JubJub.new.d * Point.zero.x * Point.zero.x *
                Point.zero.y * Point.zero.y),
            (Point.zero.y * Point.zero.y + Point.zero.x * Point.zero.x) /
              (1 - JubJub.new.d * Point.zero.x * Point.zero.x *
                Point.zero.y * Point.zero.y)⟩ :=
  (C10_add_assign_incomplete Point.zero Point.zero JubJub.new).2
    (by decide) (by decide)

end Jubjub
